import Mathlib

/-
Verification development for the meshmagick hydrostatics package.

The definitions below are a shallow embedding, over exact rational
arithmetic, of the two source modules:

  meshmagick/meshmagick.py   (Plane, clip_by_plane, helper functions)
  meshmagick/hydrostatics.py (Hydrostatics: integrals, stiffness matrix,
                              mass setter, equilibrate solver loop)

Numbers are modelled by the rationals; numpy arrays by lists; python
dicts by insertion-ordered association lists; python exceptions by
Except / Option results.  Each definition carries a reference to the
source lines it embeds.
-/

set_option maxRecDepth 4000

namespace MM

/-! ## Basic geometry: points and planes -/

/-- A 3d point with rational coordinates, standing for one row of the
numpy vertex array V. -/
abbrev Pt3 := ℚ × ℚ × ℚ

/-- Euclidean dot product of two 3d points. -/
def dot3 (a b : Pt3) : ℚ :=
  a.1 * b.1 + a.2.1 * b.2.1 + a.2.2 * b.2.2

/-- The Plane class of meshmagick.py (lines 41-44): a normal vector and a
scalar offset e, representing the set of x with dot(normal, x) = e. -/
structure PlaneMM where
  normal : Pt3
  e : ℚ
deriving DecidableEq, Repr

/-- Signed distance of a point to the plane, as the specification
describes it for the plane defined by dot(n, x) = e. -/
def signedDistance (p : PlaneMM) (point : Pt3) : ℚ :=
  dot3 p.normal point - p.e

/-- Plane.point_distance (meshmagick.py lines 61-72), embedded verbatim:
dist is dot(normal, point) with no subtraction of e; the classification is
0 when the absolute value of dist is below tol, -1 when dist < e, 1 when
dist > e, and otherwise no branch assigns it, which in python raises
UnboundLocalError at the return; that missing case is modelled by none. -/
def point_distance (p : PlaneMM) (point : Pt3) (tol : ℚ) : ℚ × Option ℤ :=
  let dist := dot3 p.normal point
  if |dist| < tol then (dist, some 0)
  else if dist < p.e then (dist, some (-1))
  else if dist > p.e then (dist, some 1)
  else (dist, none)

/-- get_edge_intersection_by_plane (meshmagick.py lines 333-337):
parametric intersection of segment V0 V1 with the plane. -/
def get_edge_intersection_by_plane (p : PlaneMM) (V0 V1 : Pt3) : Pt3 :=
  let d0 := dot3 p.normal V0 - p.e
  let d1 := dot3 p.normal V1 - p.e
  let t := d0 / (d0 - d1)
  (V0.1 + t * (V1.1 - V0.1),
   V0.2.1 + t * (V1.2.1 - V0.2.1),
   V0.2.2 + t * (V1.2.2 - V0.2.2))

/-! ## List utilities mirroring numpy / python list operations -/

/-- python list.insert(i, x): inserts before index i, appends when i is
past the end. -/
def insertAt {α : Type} : ℕ → α → List α → List α
  | 0, x, l => x :: l
  | _ + 1, x, [] => [x]
  | n + 1, x, a :: l => a :: insertAt n x l

/-- numpy boolean-mask extraction l[m]: the elements of l whose parallel
mask entry is true. -/
def maskFilter {α : Type} (l : List α) (m : List Bool) : List α :=
  ((l.zip m).filter (fun p => p.2)).map (fun p => p.1)

/-- python dict membership d.has_key(k) / lookup d[k] on an
insertion-ordered association list. -/
def alookup {β : Type} (d : List (ℕ × β)) (k : ℕ) : Option β :=
  (d.find? (fun p => p.1 = k)).map (fun p => p.2)

/-- python dict assignment d[k] = v: overwrite in place when the key is
present, append otherwise. -/
def dinsert {β : Type} (k : ℕ) (v : β) (d : List (ℕ × β)) : List (ℕ × β) :=
  if d.any (fun p => p.1 = k) then
    d.map (fun p => if p.1 = k then (k, v) else p)
  else d ++ [(k, v)]

/-- python dict.pop(k): value plus the dictionary without the key, or
none (a KeyError) when the key is absent. -/
def dpop {β : Type} (d : List (ℕ × β)) (k : ℕ) : Option (β × List (ℕ × β)) :=
  match alookup d k with
  | none => none
  | some v => some (v, d.filter (fun p => p.1 ≠ k))

/-- python list.index(x): index of the first occurrence. -/
def idxOf (l : List ℕ) (x : ℕ) : ℕ := l.findIdx (fun y => y = x)

deriving instance DecidableEq for Except

/-! ## clip_by_plane (meshmagick.py lines 75-331)

The vertex array V is a list of points; the face array F is a list of
4-entry rows of 1-based vertex ids, a row being a triangle when its
first and last entries coincide.  All python exceptions are surfaced
through the Except monad. -/

/-- The errors clip_by_plane can raise: a KeyError from dict.pop while
stitching, an IndexError from keys()[0] on an empty dict, and the numpy
ValueError from assigning a row whose length is not 4 into F. -/
inductive ClipErr where
  | keyErr
  | idxErr
  | shapeErr
deriving DecidableEq, Repr

/-- Plane position of a vertex (line 90): dot(V, normal) - e. -/
def planePos (p : PlaneMM) (v : Pt3) : ℚ := dot3 p.normal v - p.e

/-- Vertex keep flag (line 93): positions <= abs_tol. -/
def keepFlag (p : PlaneMM) (tol : ℚ) (v : Pt3) : Bool :=
  decide (planePos p v ≤ tol)

/-- Keep flag looked up by 0-based vertex id, defaulting like the python
array access for ids inside range. -/
def keepB (V : List Pt3) (p : PlaneMM) (tol : ℚ) (i : ℕ) : Bool :=
  keepFlag p tol (V.getD i (0, 0, 0))

/-- Below flag (line 117): positions < -abs_tol. -/
def belowB (V : List Pt3) (p : PlaneMM) (tol : ℚ) (i : ℕ) : Bool :=
  decide (planePos p (V.getD i (0, 0, 0)) < -tol)

/-- On-boundary flag (line 129): abs(positions) <= abs_tol. -/
def onBoundB (V : List Pt3) (p : PlaneMM) (tol : ℚ) (i : ℕ) : Bool :=
  decide (|planePos p (V.getD i (0, 0, 0))| ≤ tol)

/-- Number of slots of a face row (lines 103, 191-194): 3 when the row
encodes a triangle by repeating its first id in the last slot, else 4. -/
def faceNb (row : List ℕ) : ℕ :=
  if row.getD 0 0 = row.getD 3 0 then 3 else 4

/-- The 0-based working vertex list of a face: F row minus 1, truncated
to the slot count (lines 187, 196-197). -/
def faceVerts (row : List ℕ) : List ℕ :=
  (row.take (faceNb row)).map (fun x => x - 1)

/-- Number of kept vertices of a face (lines 109-113). -/
def nbKeptOfFace (V : List Pt3) (p : PlaneMM) (tol : ℚ) (row : List ℕ) : ℕ :=
  (faceVerts row).countP (fun i => keepB V p tol i)

/-- Number of below-plane vertices of a face (lines 116-120). -/
def nbBelowOfFace (V : List Pt3) (p : PlaneMM) (tol : ℚ) (row : List ℕ) : ℕ :=
  (faceVerts row).countP (fun i => belowB V p tol i)

/-- Number of on-boundary vertices of a face (lines 132-136). -/
def nbOnBoundOfFace (V : List Pt3) (p : PlaneMM) (tol : ℚ) (row : List ℕ) : ℕ :=
  (faceVerts row).countP (fun i => onBoundB V p tol i)

/-- A face kept outright: every slot kept (lines 123-125). -/
def keptFaceB (V : List Pt3) (p : PlaneMM) (tol : ℚ) (row : List ℕ) : Bool :=
  decide (nbKeptOfFace V p tol row = faceNb row)

/-- A face to be clipped: strictly fewer kept slots than its size and at
least one vertex strictly below (lines 165-169). -/
def clippedFaceB (V : List Pt3) (p : PlaneMM) (tol : ℚ) (row : List ℕ) : Bool :=
  decide (nbKeptOfFace V p tol row < faceNb row) &&
  decide (0 < nbBelowOfFace V p tol row)

/-- Final keep mask over the original faces (line 171): kept outright or
clipped. -/
def keepFFinalB (V : List Pt3) (p : PlaneMM) (tol : ℚ) (row : List ℕ) : Bool :=
  keptFaceB V p tol row || clippedFaceB V p tol row

/-- Ids of the faces to clip, in ascending order (line 172). -/
def clippedIds (V : List Pt3) (F : List (List ℕ)) (p : PlaneMM) (tol : ℚ) : List ℕ :=
  (List.range F.length).filter (fun i => clippedFaceB V p tol (F.getD i []))

/-- A boundary face of the pre-pass (lines 140-144): all slots kept and
exactly two slots on the boundary. -/
def boundaryFaceB (V : List Pt3) (p : PlaneMM) (tol : ℚ) (row : List ℕ) : Bool :=
  decide (nbOnBoundOfFace V p tol row = 2) &&
  decide (nbKeptOfFace V p tol row = faceNb row)

/-- Pre-pass boundary edge of one boundary face (lines 150-163): scan the
working ring for the first on-boundary vertex and record one directed
edge.  python indexes face_w with index-1 (wrapping through -1) and
index+1 (no wrap, but in range for every face with exactly two
on-boundary vertices); cyclic indexing keeps the function total and
agrees with python on every reachable input. -/
def prepassFace (V : List Pt3) (p : PlaneMM) (tol : ℚ)
    (bd : List (ℕ × ℕ)) (row : List ℕ) : List (ℕ × ℕ) :=
  let fw := faceVerts row
  match fw.findIdx? (fun i => onBoundB V p tol i) with
  | none => bd
  | some idx =>
    let prev := fw.getD ((idx + fw.length - 1) % fw.length) 0
    if onBoundB V p tol prev then dinsert (fw.getD idx 0) prev bd
    else dinsert (fw.getD ((idx + 1) % fw.length) 0) (fw.getD idx 0) bd

/-- The whole pre-pass (lines 148-163): fold the boundary faces in F
order into the boundary-edge dict. -/
def prepassBd (V : List Pt3) (F : List (List ℕ)) (p : PlaneMM) (tol : ℚ) : List (ℕ × ℕ) :=
  F.foldl (fun bd row =>
    if boundaryFaceB V p tol row then prepassFace V p tol bd row else bd) []

/-- Mutable state of the clipping loop: the face array being updated in
place, the appended intersection vertices, the edge-intersection cache
(line 183, keys are 0-based vertex ids, values the parallel lists of
neighbour ids and intersection ids), the new faces from pentagon splits,
the boundary-edge dict, and a flag recording the numpy shape error from
writing a row whose length is not 4. -/
structure ClipSt where
  F : List (List ℕ)
  newV : List Pt3
  edges : List (ℕ × (List ℕ × List ℕ))
  newF : List (List ℕ)
  bd : List (ℕ × ℕ)
  err : Bool
deriving Repr

/-- First half of the edge-intersection cache step (lines 211-231): find
or compute the intersection id for the key iV0, allocating ids nv + 0,
nv + 1, ... for appended vertices. -/
def storeEdgeHalf1 (V : List Pt3) (p : PlaneMM) (nv : ℕ) (st : ClipSt)
    (iV0 iV1 : ℕ) : ℕ × ClipSt :=
  match alookup st.edges iV0 with
  | some nq =>
    if iV1 ∈ nq.1 then (nq.2.getD (idxOf nq.1 iV1) 0, st)
    else
      let Q := get_edge_intersection_by_plane p (V.getD iV0 (0, 0, 0)) (V.getD iV1 (0, 0, 0))
      let idQ := nv + st.newV.length
      (idQ, { st with newV := st.newV ++ [Q],
                      edges := dinsert iV0 (nq.1 ++ [iV1], nq.2 ++ [idQ]) st.edges })
  | none =>
      let Q := get_edge_intersection_by_plane p (V.getD iV0 (0, 0, 0)) (V.getD iV1 (0, 0, 0))
      let idQ := nv + st.newV.length
      (idQ, { st with newV := st.newV ++ [Q],
                      edges := dinsert iV0 ([iV1], [idQ]) st.edges })

/-- Second half of the cache step (lines 233-239): mirror the known
intersection id under the key iV1. -/
def storeEdgeHalf2 (st : ClipSt) (iV0 iV1 idQ : ℕ) : ClipSt :=
  match alookup st.edges iV1 with
  | some nq =>
    if iV0 ∈ nq.1 then st
    else { st with edges := dinsert iV1 (nq.1 ++ [iV0], nq.2 ++ [idQ]) st.edges }
  | none => { st with edges := dinsert iV1 ([iV0], [idQ]) st.edges }

/-- The edge-intersection cache step (lines 210-239): find or compute the
intersection id of the edge iV0-iV1 and mirror the edge under the key
iV1. -/
def storeEdge (V : List Pt3) (p : PlaneMM) (nv : ℕ) (st : ClipSt)
    (iV0 iV1 : ℕ) : ℕ × ClipSt :=
  let r := storeEdgeHalf1 V p nv st iV0 iV1
  (r.1, storeEdgeHalf2 r.2 iV0 iV1 r.1)

/-- The vertex-ring walk of one face (lines 199-243): iv runs from nb-1
down to 0; at index iv + 1 python compares pos_lst[iv] with
pos_lst[iv+1] and inserts the intersection id at iv + 1; at index 0 it
compares pos_lst[-1] (the last element) with pos_lst[0] and inserts at
the front. -/
def ringLoop (V : List Pt3) (p : PlaneMM) (nv : ℕ) :
    ℕ → List ℕ → List Bool → ClipSt → List ℕ × List Bool × ClipSt
  | 0, fl, pl, st =>
    if pl.getLastD false ≠ pl.getD 0 false then
      let iV0 := fl.getLastD 0
      let iV1 := fl.getD 0 0
      let r := storeEdge V p nv st iV0 iV1
      (insertAt 0 r.1 fl, insertAt 0 true pl, r.2)
    else (fl, pl, st)
  | iv + 1, fl, pl, st =>
    let next :=
      if pl.getD iv false ≠ pl.getD (iv + 1) false then
        let iV0 := fl.getD iv 0
        let iV1 := fl.getD (iv + 1) 0
        let r := storeEdge V p nv st iV0 iV1
        (insertAt (iv + 1) r.1 fl, insertAt (iv + 1) true pl, r.2)
      else (fl, pl, st)
    ringLoop V p nv iv next.1 next.2.1 next.2.2

/-- The flag component of the ring walk on its own: the insertion
decisions of lines 199-243 read only the flag list, so the final flag
list is a function of the initial one.  Used to count the kept slots of
a walked ring. -/
def plRun : ℕ → List Bool → List Bool
  | 0, pl =>
    if pl.getLastD false ≠ pl.getD 0 false then insertAt 0 true pl else pl
  | iv + 1, pl =>
    plRun iv
      (if pl.getD iv false ≠ pl.getD (iv + 1) false then insertAt (iv + 1) true pl
       else pl)

/-- Boundary-edge emission of a clipped face (lines 250-259): find the
first intersection id (at least nv) in the clipped ring and record one
directed edge.  python reads clipped_face[index-1] (wrapping through -1)
and clipped_face[index+1] (in range on every reachable ring); cyclic
indexing keeps the function total and agrees with python there. -/
def emitBoundary (nv : ℕ) (cf : List ℕ) (bd : List (ℕ × ℕ)) : List (ℕ × ℕ) :=
  match cf.findIdx? (fun i => nv ≤ i) with
  | none => bd
  | some idx =>
    let prev := cf.getD ((idx + cf.length - 1) % cf.length) 0
    if nv ≤ prev then dinsert (cf.getD idx 0) prev bd
    else dinsert (cf.getD ((idx + 1) % cf.length) 0) (cf.getD idx 0) bd

/-- The fixed split patterns of lines 82-83: triangle = [2, 3, 4, 2] and
quadrangle = [1, 2, 4, 5], fancy-indexed into the rolled ring. -/
def splitQuadrangle (rolled : List ℕ) : List ℕ :=
  [rolled.getD 1 0, rolled.getD 2 0, rolled.getD 4 0, rolled.getD 5 0]

/-- The triangle part of the pentagon split (pattern [2, 3, 4, 2]). -/
def splitTriangle (rolled : List ℕ) : List ℕ :=
  [rolled.getD 2 0, rolled.getD 3 0, rolled.getD 4 0, rolled.getD 2 0]

/-- Processing of one face to clip (lines 187-274): walk the ring, mask
the kept slots, emit the boundary edge, pad a 3-ring to the 4-slot
triangle encoding, split a 5-ring into one quadrangle (appended to newF)
plus one triangle, and overwrite the face row in place with the result
plus 1.  A final row whose length is not 4 records the numpy shape
error instead of writing. -/
def processClippedFace (V : List Pt3) (p : PlaneMM) (tol : ℚ) (nv : ℕ)
    (getPoly : Bool) (st : ClipSt) (fid : ℕ) (row : List ℕ) : ClipSt :=
  let face0 := faceVerts row
  let pl0 := face0.map (fun i => keepB V p tol i)
  let r := ringLoop V p nv (faceNb row - 1) face0 pl0 st
  let fl := r.1
  let pl := r.2.1
  let st1 := r.2.2
  let cf0 := maskFilter fl pl
  let st2 := if getPoly then { st1 with bd := emitBoundary nv cf0 st1.bd } else st1
  let cf1 := if cf0.length = 3 then cf0 ++ [cf0.headD 0] else cf0
  let s :=
    if cf1.length = 5 then
      let nRoll := pl.findIdx (fun b => b = false)
      let rolled := fl.rotate nRoll
      (splitTriangle rolled, { st2 with newF := st2.newF ++ [splitQuadrangle rolled] })
    else (cf1, st2)
  let cf2 := s.1
  let st3 := s.2
  if cf2.length = 4 then { st3 with F := st3.F.set fid (cf2.map (fun x => x + 1)) }
  else { st3 with err := true }

/-- The clipped ring of one face before any padding or splitting (line
248): the kept slots of the extended ring.  For a quadrangle cut into a
pentagon this is the un-split 5-vertex polygon. -/
def clippedRing (V : List Pt3) (p : PlaneMM) (tol : ℚ) (nv : ℕ)
    (st : ClipSt) (row : List ℕ) : List ℕ :=
  let face0 := faceVerts row
  let pl0 := face0.map (fun i => keepB V p tol i)
  let r := ringLoop V p nv (faceNb row - 1) face0 pl0 st
  maskFilter r.1 r.2.1

/-- The main clipping loop (lines 178-274): the pre-pass boundary dict,
then a fold of processClippedFace over the faces to clip.  The rows fed
to the loop are the snapshot F[clipped_faces] taken before any in-place
write, exactly as python's fancy indexing copies them. -/
def clipCore (V : List Pt3) (F : List (List ℕ)) (p : PlaneMM) (tol : ℚ)
    (getPoly : Bool) : ClipSt :=
  let bd0 := if getPoly then prepassBd V F p tol else []
  let st0 : ClipSt := ⟨F, [], [], [], bd0, false⟩
  ((clippedIds V F p tol).map (fun i => (i, F.getD i []))).foldl
    (fun st it => processClippedFace V p tol V.length getPoly st it.1 it.2) st0

/-- One stitched loop (lines 296-305): pop the outgoing edge of iV,
append the target, stop when the target is the starting vertex.  A
missing key is the python KeyError. -/
def stitchInner (initV : ℕ) : ℕ → List (ℕ × ℕ) → ℕ → List ℕ →
    Except ClipErr (List ℕ × List (ℕ × ℕ))
  | 0, _, _, _ => .error .keyErr
  | fuel + 1, d, iV, poly =>
    match dpop d iV with
    | none => .error .keyErr
    | some td =>
      let tgt := td.1
      let d1 := td.2
      if tgt = initV then .ok (poly ++ [tgt], d1)
      else stitchInner initV fuel d1 tgt (poly ++ [tgt])

/-- The outer stitching loop (lines 293-305): initV is read once from the
first dict key and reused for every loop; the fuel is bounded by the
edge count. -/
def stitchOuter (initV : ℕ) : ℕ → List (ℕ × ℕ) → List (List ℕ) →
    Except ClipErr (List (List ℕ))
  | 0, _, _ => .error .keyErr
  | fuel + 1, d, polys =>
    if d.isEmpty then .ok polys
    else
      match stitchInner initV (d.length + 1) d initV [initV] with
      | .error e => .error e
      | .ok pd => stitchOuter initV fuel pd.2 (polys ++ [pd.1])

/-- Boundary-loop stitching as written (lines 291-305): keys()[0] on an
empty dict is the python IndexError. -/
def stitchPolygons (bd : List (ℕ × ℕ)) : Except ClipErr (List (List ℕ)) :=
  match bd.head? with
  | none => .error .idxErr
  | some kv => stitchOuter kv.1 (bd.length + 1) bd []

/-- Modelled from the spec: stitch all emitted boundary edges into closed
polygon loops by following directed adjacency, one loop per connected
component, restarting each new loop at a start vertex that still has an
outgoing edge.  This is what section 4.2 step 6 of the specification
requires; it differs from stitchPolygons only in re-reading the start
vertex for every loop. -/
def specStitchLoops : ℕ → List (ℕ × ℕ) → List (List ℕ) →
    Except ClipErr (List (List ℕ))
  | 0, _, _ => .error .keyErr
  | fuel + 1, d, polys =>
    match d.head? with
    | none => .ok polys
    | some kv =>
      match stitchInner kv.1 (d.length + 1) d kv.1 [kv.1] with
      | .error e => .error e
      | .ok pd => specStitchLoops fuel pd.2 (polys ++ [pd.1])

/-- New 0-based vertex id after re-indexing (lines 318-319): kept
vertices are renumbered by rank, discarded ones keep their stale
arange value. -/
def newID (flags : List Bool) (i : ℕ) : ℕ :=
  if flags.getD i false then (flags.take i).count true else i

/-- What clip_by_plane hands back in the general case: the clipped
vertex array, the re-indexed clipped face array, the stitched boundary
polygons (ids into the extended, pre-re-indexing numbering, as in the
source; none when get_polygon is off), and the caller's face array
after the in-place row writes of line 274 (the appended rows of line
280 live in a fresh array and never reach the caller's F). -/
structure ClipResult where
  clipV : List Pt3
  clipF : List (List ℕ)
  polygons : Option (List (List ℕ))
  callerF : List (List ℕ)
deriving DecidableEq, Repr

/-- The three return shapes of clip_by_plane: the all-kept short circuit
of lines 97-98 (the mesh unchanged, no polygons computed), the
none-kept short circuit of lines 99-100, and the general clipped
result. -/
inductive ClipOut where
  | allKept (V : List Pt3) (F : List (List ℕ))
  | noneKept
  | clipped (res : ClipResult)
deriving DecidableEq, Repr

/-- clip_by_plane (meshmagick.py lines 75-331) with get_polygon as the
only optional behaviour (areas stays at its python default of None). -/
def clip_by_plane (V : List Pt3) (F : List (List ℕ)) (p : PlaneMM)
    (abs_tol : ℚ) (get_polygon : Bool) : Except ClipErr ClipOut :=
  let kflags := V.map (keepFlag p abs_tol)
  if kflags.count true = V.length then .ok (.allKept V F)
  else if kflags.count true = 0 then .ok .noneKept
  else
    let st := clipCore V F p abs_tol get_polygon
    if st.err then .error .shapeErr
    else
      let extV := V ++ st.newV
      let allF := st.F ++ st.newF.map (fun r => r.map (fun x => x + 1))
      let keepVext := kflags ++ List.replicate st.newV.length true
      let keepFext := F.map (fun row => keepFFinalB V p abs_tol row) ++
        List.replicate st.newF.length true
      let clippedV := maskFilter extV keepVext
      let clippedF := (maskFilter allF keepFext).map
        (fun row => row.map (fun x => newID keepVext (x - 1) + 1))
      if get_polygon then
        match stitchPolygons st.bd with
        | .error e => .error e
        | .ok polys => .ok (.clipped ⟨clippedV, clippedF, some polys, st.F⟩)
      else .ok (.clipped ⟨clippedV, clippedF, none, st.F⟩)

/-- The polygon list a caller sees: the short-circuit paths return a bare
mesh pair with no polygons even when get_polygon was requested. -/
def polygonsOf : ClipOut → Option (List (List ℕ))
  | .allKept _ _ => none
  | .noneKept => none
  | .clipped r => r.polygons

/-! ## Waterplane integrals (hydrostatics.py lines 460-514)

The sigma0 accumulation of _update_hydrostatic_properties walks each
intersection polygon with a running previous point, adding
(y2 - y1) * (x1 + x2) per edge, and finally divides by 2. -/

/-- The inner edge loop of lines 481-496 restricted to sigma0: acc is
the running sum, prev the (xi, yi) pair, and the list the remaining
polygon vertices. -/
def sigma0Accum : ℚ → ℚ × ℚ → List Pt3 → ℚ
  | acc, _, [] => acc
  | acc, prev, v :: rest =>
      sigma0Accum (acc + (v.2.1 - prev.2) * (prev.1 + v.1)) (v.1, v.2.1) rest

/-- sigma0 contribution of one polygon (lines 481-496): seed the running
point with the first vertex and walk the rest. -/
def sigma0Poly (acc : ℚ) (poly : List Pt3) : ℚ :=
  match poly with
  | [] => acc
  | v :: rest => sigma0Accum acc (v.1, v.2.1) rest

/-- The stored waterplane area (lines 474-514): sigma0 summed over every
polygon, then scaled by the fixed factor 1/2 of line 506. -/
def waterplane_area (polys : List (List Pt3)) : ℚ :=
  (polys.foldl sigma0Poly 0) / 2

/-- Cross-product sum of the standard shoelace formula over a vertex
walk, used to state what the specification calls the exact shoelace
area of a polygon. -/
def crossSum : ℚ × ℚ → List Pt3 → ℚ
  | _, [] => 0
  | prev, v :: rest => (prev.1 * v.2.1 - v.1 * prev.2) + crossSum (v.1, v.2.1) rest

/-- The exact signed shoelace area of a polygon given as an explicitly
closed vertex walk (last vertex repeating the first). -/
def shoelaceArea (poly : List Pt3) : ℚ :=
  match poly with
  | [] => 0
  | v :: rest => crossSum (v.1, v.2.1) rest / 2

/-- The (x, y) pair of the last vertex of the walk, or the running point
when the walk is over; the telescoping witness of the sigma0 proof. -/
def lastXY : ℚ × ℚ → List Pt3 → ℚ × ℚ
  | prev, [] => prev
  | _, v :: rest => lastXY (v.1, v.2.1) rest

/-! ## Hydrostatic stiffness matrix (hydrostatics.py lines 429, 516-542) -/

/-- The symmetric assembly of lines 536-539. -/
def assembleStiffness (s33 s34 s35 s44 s45 s55 : ℚ) : Fin 3 → Fin 3 → ℚ :=
  ![![s33, s34, s35],
    ![s34, s44, s45],
    ![s35, s45, s55]]

/-- The tiny-coefficient zeroing of line 542 with the eps of line 429. -/
def zeroTiny (eps : ℚ) (M : Fin 3 → Fin 3 → ℚ) : Fin 3 → Fin 3 → ℚ :=
  fun i j => if |M i j| < eps then 0 else M i j

/-- The stiffness matrix stored by _update_hydrostatic_properties (lines
516-542): the six coefficients from rhog, the waterplane moments, the
displaced volume and the centre heights, assembled symmetric, then
zeroed below eps = 1e-4. -/
def hsStiffnessMatrix (rhog sigma1 sigma2 sigma3 sigma4 sigma5
    wpArea dispVol zg zb : ℚ) : Fin 3 → Fin 3 → ℚ :=
  let s33 := rhog * wpArea
  let s34 := rhog * sigma2
  let s35 := -rhog * sigma1
  let s45 := -rhog * sigma3
  let transversalMetacentricRadius := sigma5 / dispVol
  let longitudinalMetacentricRadius := sigma4 / dispVol
  let a := zg - zb
  let gmx := transversalMetacentricRadius - a
  let gmy := longitudinalMetacentricRadius - a
  let s44 := rhog * dispVol * gmx
  let s55 := rhog * dispVol * gmy
  zeroTiny (1 / 10000) (assembleStiffness s33 s34 s35 s44 s45 s55)

/-! ## Mass setter (hydrostatics.py lines 178-196) -/

/-- The slice of Hydrostatics state the mass setter touches: the mass in
kg, the weight, the fixed water density, gravity and total mesh volume,
plus a counter of equilibrium iterations performed so far (the setter
calls no iteration, so it never changes). -/
structure HydroState where
  massKg : ℚ
  mg : ℚ
  gravity : ℚ
  rhoWater : ℚ
  meshVolume : ℚ
  equilibriumIters : ℕ
deriving DecidableEq, Repr

/-- _max_displacement (lines 189-190): rho_water times the full mesh
volume, in kg. -/
def maxDisplacement (s : HydroState) : ℚ := s.rhoWater * s.meshVolume

/-- is_sinking (lines 192-196): strictly heavier than the fully
submerged displaced mass. -/
def is_sinking (s : HydroState) : Bool :=
  decide (s.massKg > maxDisplacement s)

/-- The mass setter (lines 178-187): convert tons to kg, update mass and
weight, then raise when sinking.  The ValueError carries the already
mutated state, as the python object keeps the assignment. -/
def setMass (s : HydroState) (value : ℚ) : Except HydroState HydroState :=
  let s1 := { s with massKg := value * 1000, mg := value * 1000 * s.gravity }
  if is_sinking s1 then .error s1 else .ok s1

/-- The state after the setter, whether or not it raised. -/
def setMassState : Except HydroState HydroState → HydroState
  | .error s => s
  | .ok s => s

/-! ## The equilibrate solver loop (hydrostatics.py lines 672-811)

The geometry (mesh, gravity centre, forces, clipping, hydrostatic
recomputation) is abstracted into a state type S with three oracle
operations; the control flow of the while loop, the convergence and
stability tests, the relaxation clamping, the restart bookkeeping and
the termination codes are embedded literally. -/

/-- What one measurement of the current pose yields: the residual
(lines 601-617), the scale (lines 593-599), the two metacentric heights
(lines 253-259), and the correction solved from the stiffness matrix
(line 780). -/
structure Meas where
  res1 : ℚ
  res2 : ℚ
  res3 : ℚ
  sc1 : ℚ
  sc2 : ℚ
  sc3 : ℚ
  gmx : ℚ
  gmy : ℚ
  corr1 : ℚ
  corr2 : ℚ
  corr3 : ℚ
deriving DecidableEq, Repr

/-- The solver parameters read at lines 686-693: reltol, itermax,
max_nb_restart, z_relax, the two theta relax caps already converted to
radians, and stop_at_unstable. -/
structure SolverParams where
  reltol : ℚ
  itermax : ℕ
  maxNbRestart : ℕ
  zRelax : ℚ
  thetaRelaxX : ℚ
  thetaRelaxY : ℚ
  stopAtUnstable : Bool
deriving DecidableEq, Repr

/-- The abstracted geometry of one equilibrium run: apply performs lines
739-751 (translate by dz, rotate by the two angles, update the forces,
re-clip and recompute the hydrostatics), randRestart performs lines
721-729 for the n-th restart (the random rotation is a function of the
restart number), and measure reads the residual, scale, metacentric
heights and solved correction of a pose. -/
structure Oracle (S : Type) where
  apply : S → ℚ → ℚ → ℚ → S
  randRestart : ℕ → S → S
  measure : S → Meas

/-- The convergence test of line 759: all three residual components,
divided by their scales, strictly below reltol in absolute value. -/
def convergedB (reltol : ℚ) (m : Meas) : Bool :=
  decide (|m.res1 / m.sc1| < reltol) &&
  decide (|m.res2 / m.sc2| < reltol) &&
  decide (|m.res3 / m.sc3| < reltol)

/-- isstable (lines 282-289): both metacentric heights strictly
positive. -/
def stableB (m : Meas) : Bool :=
  decide (m.gmx > 0) && decide (m.gmy > 0)

/-- math.copysign(a, x): the magnitude of a with the sign of x, positive
at x = 0. -/
def copysignQ (a x : ℚ) : ℚ := if x < 0 then -|a| else |a|

/-- The relaxation clamp of lines 783-790: replace a correction whose
magnitude exceeds the cap by the cap with the correction's sign. -/
def clampRelax (cap x : ℚ) : ℚ :=
  if |x| > cap then copysignQ cap x else x

/-- The loop state of equilibrate: the abstract pose, the pending
corrections dz, thetax, thetay of lines 699 and 780-790, the iteration
and restart counters, and the unstable_config flag. -/
structure LoopSt (S : Type) where
  s : S
  dz : ℚ
  tx : ℚ
  ty : ℚ
  iter : ℕ
  nbRestart : ℕ
  unstable : Bool

/-- One recorded relaxation event: the caps used and the corrections
before and after clamping, in the order dz, thetax, thetay. -/
structure TraceEntry where
  capZ : ℚ
  capX : ℚ
  capY : ℚ
  preZ : ℚ
  preX : ℚ
  preY : ℚ
  appZ : ℚ
  appX : ℚ
  appY : ℚ
deriving DecidableEq, Repr

/-- The body of one loop pass after the restart check (lines 738-792):
apply the pending correction, measure, and branch on convergence and
stability; the non-converged branch solves and clamps the next
correction and records a trace entry. -/
def eqBody {S : Type} (P : SolverParams) (O : Oracle S) (st : LoopSt S) :
    ((ℕ × S) ⊕ LoopSt S) × Option TraceEntry :=
  let s1 := O.apply st.s st.dz st.tx st.ty
  let m := O.measure s1
  if convergedB P.reltol m then
    if stableB m then (Sum.inl (1, s1), none)
    else if P.stopAtUnstable then (Sum.inl (2, s1), none)
    else (Sum.inr { st with s := s1, iter := st.iter + 1, unstable := true }, none)
  else
    let dz1 := clampRelax P.zRelax m.corr1
    let tx1 := clampRelax P.thetaRelaxX m.corr2
    let ty1 := clampRelax P.thetaRelaxY m.corr3
    (Sum.inr { st with s := s1, dz := dz1, tx := tx1, ty := ty1,
                       iter := st.iter + 1, unstable := false },
     some ⟨P.zRelax, P.thetaRelaxX, P.thetaRelaxY,
           m.corr1, m.corr2, m.corr3, dz1, tx1, ty1⟩)

/-- One full pass of the while loop (lines 703-792): the restart check
of line 705 (with the integer arithmetic of python ints), the restart
of lines 718-731 falling through into the body, the budget-exhausted
exit with code 0, or the plain body. -/
def eqStep {S : Type} (P : SolverParams) (O : Oracle S) (st : LoopSt S) :
    ((ℕ × S) ⊕ LoopSt S) × Option TraceEntry :=
  if st.unstable || decide ((st.iter : ℤ) = (st.nbRestart + 1) * ((P.itermax : ℤ) - 1)) then
    if (st.nbRestart : ℤ) < (P.maxNbRestart : ℤ) - 1 then
      eqBody P O { st with s := O.randRestart st.nbRestart st.s,
                           dz := 0, tx := 0, ty := 0,
                           nbRestart := st.nbRestart + 1, unstable := false }
    else (Sum.inl (0, st.s), none)
  else eqBody P O st

/-- Fuel-bounded iteration of eqStep, accumulating the relaxation
trace; none models a run longer than the fuel. -/
def eqRun {S : Type} (P : SolverParams) (O : Oracle S) :
    ℕ → LoopSt S → List TraceEntry → Option ((ℕ × S) × List TraceEntry)
  | 0, _, _ => none
  | fuel + 1, st, tr =>
    match eqStep P O st with
    | (Sum.inl out, _) => some (out, tr)
    | (Sum.inr st1, none) => eqRun P O fuel st1 tr
    | (Sum.inr st1, some e) => eqRun P O fuel st1 (tr ++ [e])

/-- equilibrate (lines 672-811): run the balancing loop from the pose
reached after the optional displacement phase (absorbed into s0), with
zero initial corrections and counters (lines 699-700).  The result is
the termination code together with the pose at which the loop stopped
iterating, plus the relaxation trace. -/
def equilibrate {S : Type} (P : SolverParams) (O : Oracle S) (s0 : S)
    (fuel : ℕ) : Option ((ℕ × S) × List TraceEntry) :=
  eqRun P O fuel ⟨s0, 0, 0, 0, 0, 0, false⟩ []

/-! ## Specification-side predicates used to state the claims -/

/-- A pose at which the loop would stop successfully: converged and
stable by the tests of lines 759 and 761. -/
def measuredNotDone {S : Type} (P : SolverParams) (O : Oracle S) (x : S) : Prop :=
  ¬ (convergedB P.reltol (O.measure x) = true ∧ stableB (O.measure x) = true)

/-- Invariant of the balancing loop: either the loop state is the very
first one (nothing measured yet) or the current pose has been measured
and found not converged-and-stable. -/
def loopInv {S : Type} (P : SolverParams) (O : Oracle S) (st : LoopSt S) : Prop :=
  (st.iter = 0 ∧ st.nbRestart = 0 ∧ st.unstable = false) ∨ measuredNotDone P O st.s

/-- A relaxation trace entry produced with the constant caps of lines
686-689 and the clamp of lines 783-790. -/
def entryFixed (P : SolverParams) (e : TraceEntry) : Prop :=
  e.capZ = P.zRelax ∧ e.capX = P.thetaRelaxX ∧ e.capY = P.thetaRelaxY ∧
  e.appZ = clampRelax P.zRelax e.preZ ∧
  e.appX = clampRelax P.thetaRelaxX e.preX ∧
  e.appY = clampRelax P.thetaRelaxY e.preY

/-- All appended intersection vertices lie exactly on the plane. -/
def newVok (p : PlaneMM) (st : ClipSt) : Prop :=
  ∀ q ∈ st.newV, planePos p q = 0

/-- Invariant of an edge-intersection cache list: parallel neighbour and
id lists, every cached id at least nv. -/
def edgesListOk (nv : ℕ) (d : List (ℕ × (List ℕ × List ℕ))) : Prop :=
  ∀ kv ∈ d, kv.2.1.length = kv.2.2.length ∧ ∀ q ∈ kv.2.2, nv ≤ q

/-- Invariant of the edge-intersection cache of the clipping state. -/
def edgesOk (nv : ℕ) (st : ClipSt) : Prop := edgesListOk nv st.edges

/-- Signed shoelace area of a cyclically closed ring of vertex ids under
a coordinate assignment: half the cross-product sum over consecutive
cyclic pairs. -/
def shoelaceIdxArea (crd : ℕ → ℚ × ℚ) (ring : List ℕ) : ℚ :=
  (((ring.zip (ring.rotate 1)).map
    (fun pq => (crd pq.1).1 * (crd pq.2).2 - (crd pq.2).1 * (crd pq.1).2)).sum) / 2

/-! ## Concrete fixtures -/

/-- The Oxy free-surface plane used by the hydrostatics module. -/
def planeOxy : PlaneMM := ⟨(0, 0, 1), 0⟩

/-- A tetrahedron straddling the Oxy plane: apex above, base below. -/
def tetV : List Pt3 := [(0, 0, 2), (1, 0, -1), (-1, 1, -1), (-1, -1, -1)]

/-- The faces of the tetrahedron, outward oriented, 1-based, triangles
padded to 4 slots. -/
def tetF : List (List ℕ) :=
  [[1, 2, 3, 1], [1, 3, 4, 1], [1, 4, 2, 1], [2, 4, 3, 2]]

/-- The result of clipping the tetrahedron by the Oxy plane with
get_polygon on and abs_tol = 1/1000. -/
def tetRes : ClipResult :=
  ⟨[(1, 0, -1), (-1, 1, -1), (-1, -1, -1),
    (2/3, 0, 0), (-2/3, 2/3, 0), (-2/3, -2/3, 0)],
   [[5, 4, 1, 2], [6, 5, 2, 3], [4, 6, 3, 1], [1, 3, 2, 1]],
   some [[4, 5, 6, 4]],
   [[6, 5, 2, 3], [7, 6, 3, 4], [5, 7, 4, 2], [2, 4, 3, 2]]⟩

/-- Two disjoint straddling tetrahedra: a mesh whose waterline cut has
two closed boundary loops. -/
def tet2V : List Pt3 :=
  tetV ++ [(10, 0, 2), (11, 0, -1), (9, 1, -1), (9, -1, -1)]

/-- The faces of the two tetrahedra. -/
def tet2F : List (List ℕ) :=
  [[1, 2, 3, 1], [1, 3, 4, 1], [1, 4, 2, 1],
   [5, 6, 7, 5], [5, 7, 8, 5], [5, 8, 6, 5],
   [2, 4, 3, 2], [6, 8, 7, 6]]

/-- A single quadrilateral face with its second vertex above the plane:
clipping it produces a 5-vertex polygon. -/
def pentV : List Pt3 := [(0, 0, -1), (1, 0, 1), (1, 1, -1), (0, 1, -1)]

/-- The face array holding that single quadrangle. -/
def pentF : List (List ℕ) := [[1, 2, 3, 4]]

/-- The initial clipping state for the single-quadrangle fixture. -/
def pentSt : ClipSt := ⟨pentF, [], [], [], [], false⟩

/-- A measurement that is converged and stable under any reltol up to
1/100: zero residuals, unit scales, positive metacentric heights. -/
def measGood : Meas := ⟨0, 0, 0, 1, 1, 1, 1, 1, 0, 0, 0⟩

/-- An oracle over the trivial pose space whose every measurement is
converged and stable. -/
def oracleGood : Oracle Unit :=
  ⟨fun _ _ _ _ => (), fun _ _ => (), fun _ => measGood⟩

/-- Admissible solver parameters with itermax = 1 and max_nb_restart = 1
(both allowed by the setters of lines 382-398). -/
def pC1bad : SolverParams := ⟨1/100, 1, 1, 1/10, 1/30, 1/30, false⟩

/-- Default-like solver parameters with itermax = 2. -/
def pC1ok : SolverParams := ⟨1/100, 2, 10, 1/10, 1/30, 1/30, false⟩

/-- A measurement sequence over poses counted by a natural number: the
first poses are not converged with dz corrections of alternating sign
and magnitude 5, pose 3 is converged and stable. -/
def meas5 (n : ℕ) : Meas :=
  if 3 ≤ n then measGood
  else ⟨1, 0, 0, 1, 1, 1, 1, 1, if n % 2 = 1 then -5 else 5, 0, 0⟩

/-- The oracle stepping that counter. -/
def oracle5 : Oracle ℕ := ⟨fun n _ _ _ => n + 1, fun _ n => n, meas5⟩

/-- Default solver parameters (lines 113-118) with the theta caps taken
as 1/30 radians. -/
def p5 : SolverParams := ⟨1/100, 100, 10, 1/10, 1/30, 1/30, false⟩

/-- The first relaxation trace entry of the oracle5 run. -/
def c5e1 : TraceEntry := ⟨1/10, 1/30, 1/30, -5, 0, 0, -1/10, 0, 0⟩

/-- The second relaxation trace entry of the oracle5 run: the dz
correction has flipped sign and the cap is unchanged. -/
def c5e2 : TraceEntry := ⟨1/10, 1/30, 1/30, 5, 0, 0, 1/10, 0, 0⟩

/-- A unit square waterline polygon in the plane z = 0, explicitly
closed. -/
def sqPoly : List Pt3 :=
  [(0, 0, 0), (1, 0, 0), (1, 1, 0), (0, 1, 0), (0, 0, 0)]

/-! # Theorems -/

/-! ## C7: the sigma0 accumulation is the exact shoelace area -/

theorem lastXY_getLast (l : List Pt3) : ∀ (prev : ℚ × ℚ) (u : Pt3),
    l.getLast? = some u → lastXY prev l = (u.1, u.2.1) := by
  induction l with
  | nil => intro prev u h; exact absurd h (by simp)
  | cons v rest ih =>
    intro prev u h
    cases rest with
    | nil =>
      simp only [List.getLast?_singleton, Option.some.injEq] at h
      rw [← h]
      rfl
    | cons w r =>
      rw [List.getLast?_cons_cons] at h
      exact ih (v.1, v.2.1) u h

theorem sigma0Accum_eq (l : List Pt3) : ∀ (acc : ℚ) (prev : ℚ × ℚ),
    sigma0Accum acc prev l =
      acc + crossSum prev l +
        ((lastXY prev l).1 * (lastXY prev l).2 - prev.1 * prev.2) := by
  induction l with
  | nil =>
    intro acc prev
    simp only [sigma0Accum, crossSum, lastXY]
    ring
  | cons v rest ih =>
    intro acc prev
    simp only [sigma0Accum, crossSum, lastXY]
    rw [ih]
    ring

/-- C7: for every boundary polygon given as a closed vertex sequence
(last vertex equal to the first) lying in the plane z = 0, the sigma0
integral accumulated by _update_hydrostatic_properties and scaled by
1/2 equals the polygon's exact signed shoelace area, so the stored
waterplane_area is the exact polygon area. -/
theorem c7_sigma0_shoelace (poly : List Pt3)
    (hclosed : poly.getLast? = poly.head?)
    (hz : ∀ v ∈ poly, v.2.2 = 0) :
    waterplane_area [poly] = shoelaceArea poly := by
  cases poly with
  | nil =>
    simp [waterplane_area, sigma0Poly, shoelaceArea]
  | cons v rest =>
    have harea : waterplane_area [v :: rest] = sigma0Accum 0 (v.1, v.2.1) rest / 2 := by
      simp [waterplane_area, sigma0Poly]
    have hv : (v :: rest).getLast? = some v := by rw [hclosed]; rfl
    rw [harea, sigma0Accum_eq, shoelaceArea]
    cases rest with
    | nil => simp [lastXY]
    | cons w r =>
      rw [List.getLast?_cons_cons] at hv
      rw [lastXY_getLast (w :: r) (v.1, v.2.1) v hv]
      ring

/-- C7 witness: the unit square waterline polygon. -/
theorem c7_sigma0_shoelace_witness : waterplane_area [sqPoly] = shoelaceArea sqPoly :=
  c7_sigma0_shoelace sqPoly (by with_unfolding_all decide) (by with_unfolding_all decide)

/-! ## C8: the stored stiffness matrix is symmetric -/

/-- C8: after every hydrostatic recomputation the stored 3x3 stiffness
matrix is symmetric: assembled symmetric from the six coefficients and
the tiny-coefficient zeroing preserves the symmetry, for every input. -/
theorem c8_stiffness_symmetric
    (rhog sigma1 sigma2 sigma3 sigma4 sigma5 wpArea dispVol zg zb : ℚ)
    (i j : Fin 3) :
    hsStiffnessMatrix rhog sigma1 sigma2 sigma3 sigma4 sigma5 wpArea dispVol zg zb i j =
    hsStiffnessMatrix rhog sigma1 sigma2 sigma3 sigma4 sigma5 wpArea dispVol zg zb j i := by
  fin_cases i <;> fin_cases j <;> rfl

/-! ## C9: the mass setter rejects a sinking mass before iterating -/

/-- C9: assigning a mass (in tons) whose kg value strictly exceeds the
fully submerged displaced mass rho_water times the mesh volume raises
immediately; otherwise the assignment succeeds; in both cases the mass
fields are updated and no equilibrium iteration runs and the mesh data
is untouched. -/
theorem c9_mass_setter (s : HydroState) (v : ℚ) :
    ((setMass s v).isOk = false ↔ v * 1000 > s.rhoWater * s.meshVolume) ∧
    (setMassState (setMass s v)).massKg = v * 1000 ∧
    (setMassState (setMass s v)).equilibriumIters = s.equilibriumIters ∧
    (setMassState (setMass s v)).meshVolume = s.meshVolume ∧
    (setMassState (setMass s v)).rhoWater = s.rhoWater := by
  unfold setMass setMassState is_sinking maxDisplacement
  dsimp only
  split_ifs with h <;> simp_all [Except.isOk, Except.toBool, not_lt]

/-! ## C4: Plane.point_distance -/

/-- C4 (code bug): at the plane with normal (0,0,1) and offset e = 1,
the point (0,0,1) lies exactly on the plane (signed distance 0, inside
any positive tol band), yet point_distance returns the raw dot product
1 instead of the signed distance and assigns no classification at all
(the python UnboundLocalError), instead of the required signed distance
0 with the on-plane classification. -/
theorem c4_point_distance_bug :
    signedDistance ⟨(0, 0, 1), 1⟩ (0, 0, 1) = 0 ∧
    |signedDistance ⟨(0, 0, 1), 1⟩ (0, 0, 1)| < 1/1000000000 ∧
    point_distance ⟨(0, 0, 1), 1⟩ (0, 0, 1) (1/1000000000) = (1, none) := by
  with_unfolding_all decide

/-! ## C1: termination code 1 versus the stopping pose -/

/-- C1 counterexample: with itermax = 1 and max_nb_restart = 1 (both
admissible parameter values) the restart check fires before the first
residual evaluation and equilibrate returns the failure code 0 even
though the pose at which it stops is converged and stable, refuting the
claimed if-and-only-if. -/
theorem c1_counterexample :
    equilibrate pC1bad oracleGood () 5 = some ((0, ()), []) ∧
    convergedB pC1bad.reltol (oracleGood.measure ()) = true ∧
    stableB (oracleGood.measure ()) = true := by
  with_unfolding_all decide

/-! ## C5: the relaxation caps are never adapted -/

/-- C5 counterexample: a run whose two successive dz corrections have
opposite signs (-1/10 then 1/10) while the cap used at the second
correction is still 1/10, not the claimed min of half the previous cap
and the correction jump (which is 1/20). -/
theorem c5_counterexample :
    (equilibrate p5 oracle5 0 9).map (fun r => r.2) = some [c5e1, c5e2] ∧
    c5e1.appZ * c5e2.appZ < 0 ∧
    c5e2.capZ = c5e1.capZ ∧
    c5e2.capZ ≠ min (c5e1.capZ / 2) |c5e2.appZ - c5e1.appZ| := by
  with_unfolding_all decide

/-! ## C2: multi-loop boundary stitching -/

/-- C2 (code bug): the two-tetrahedron mesh straddles the plane and its
emitted boundary edges form exactly the two disjoint closed loops that
the specification's stitching returns (each ending at its start
vertex), but clip_by_plane raises a KeyError: the stitching loop reuses
the consumed start vertex of the first loop for the second one. -/
theorem c2_two_loop_stitch_bug :
    specStitchLoops 10 (clipCore tet2V tet2F planeOxy (1/1000) true).bd [] =
      .ok [[8, 9, 10, 8], [11, 12, 13, 11]] ∧
    clip_by_plane tet2V tet2F planeOxy (1/1000) true = .error .keyErr := by
  with_unfolding_all decide

/-! ## C6: clipping twice at the same plane -/

/-- C6 counterexample: clipping the tetrahedron produces one boundary
loop, but re-running clip_by_plane on the clipped output with the same
plane and tolerance takes the all-kept short circuit and returns the
mesh with no polygon list at all, so the boundary loop set is not
reproduced. -/
theorem c6_counterexample :
    clip_by_plane tetV tetF planeOxy (1/1000) true = .ok (.clipped tetRes) ∧
    tetRes.polygons = some [[4, 5, 6, 4]] ∧
    clip_by_plane tetRes.clipV tetRes.clipF planeOxy (1/1000) true =
      .ok (.allKept tetRes.clipV tetRes.clipF) ∧
    polygonsOf (.allKept tetRes.clipV tetRes.clipF) = none := by
  with_unfolding_all decide

/-! ## C1 amended: the loop-exit analysis of equilibrate -/

theorem eqBody_inl {S : Type} (P : SolverParams) (O : Oracle S) (st : LoopSt S)
    (c : ℕ) (s : S) (e : Option TraceEntry)
    (h : eqBody P O st = (Sum.inl (c, s), e)) :
    c = 1 ↔ (convergedB P.reltol (O.measure s) = true ∧
             stableB (O.measure s) = true) := by
  unfold eqBody at h
  dsimp only at h
  split_ifs at h with h1 h2 h3
  · simp only [Prod.mk.injEq, Sum.inl.injEq] at h
    obtain ⟨⟨hc, hs⟩, _⟩ := h
    subst hc
    subst hs
    simp [h1, h2]
  · simp only [Prod.mk.injEq, Sum.inl.injEq] at h
    obtain ⟨⟨hc, hs⟩, _⟩ := h
    subst hc
    subst hs
    simp [h2]
  · simp at h
  · simp at h

theorem eqBody_inr {S : Type} (P : SolverParams) (O : Oracle S) (st st1 : LoopSt S)
    (e : Option TraceEntry) (h : eqBody P O st = (Sum.inr st1, e)) :
    measuredNotDone P O st1.s := by
  unfold eqBody at h
  dsimp only at h
  split_ifs at h with h1 h2 h3
  · simp at h
  · simp at h
  · simp only [Prod.mk.injEq, Sum.inr.injEq] at h
    obtain ⟨hst, _⟩ := h
    subst hst
    intro hcs
    exact h2 hcs.2
  · simp only [Prod.mk.injEq, Sum.inr.injEq] at h
    obtain ⟨hst, _⟩ := h
    subst hst
    intro hcs
    exact h1 hcs.1

theorem eqStep_inl {S : Type} (P : SolverParams) (O : Oracle S) (st : LoopSt S)
    (c : ℕ) (s : S) (e : Option TraceEntry)
    (h2 : 2 ≤ P.itermax) (hinv : loopInv P O st)
    (h : eqStep P O st = (Sum.inl (c, s), e)) :
    c = 1 ↔ (convergedB P.reltol (O.measure s) = true ∧
             stableB (O.measure s) = true) := by
  unfold eqStep at h
  split_ifs at h with ht hb
  · exact eqBody_inl P O _ c s e h
  · simp only [Prod.mk.injEq, Sum.inl.injEq] at h
    obtain ⟨⟨hc, hs⟩, _⟩ := h
    subst hc
    subst hs
    rcases hinv with ⟨hi, hn, hu⟩ | hm
    · exfalso
      rw [hu] at ht
      simp only [Bool.false_or, decide_eq_true_eq] at ht
      rw [hi, hn] at ht
      omega
    · constructor
      · intro h0
        exact absurd h0 (by norm_num)
      · intro hcs
        exact absurd hcs hm
  · exact eqBody_inl P O _ c s e h

theorem eqStep_inr {S : Type} (P : SolverParams) (O : Oracle S) (st st1 : LoopSt S)
    (e : Option TraceEntry) (h : eqStep P O st = (Sum.inr st1, e)) :
    loopInv P O st1 := by
  unfold eqStep at h
  split_ifs at h with ht hb
  · exact Or.inr (eqBody_inr P O _ st1 e h)
  · simp at h
  · exact Or.inr (eqBody_inr P O _ st1 e h)

theorem eqRun_code_iff {S : Type} (P : SolverParams) (O : Oracle S)
    (h2 : 2 ≤ P.itermax) :
    ∀ (fuel : ℕ) (st : LoopSt S) (tr : List TraceEntry) (code : ℕ) (s : S)
      (tr1 : List TraceEntry),
      loopInv P O st →
      eqRun P O fuel st tr = some ((code, s), tr1) →
      (code = 1 ↔ (convergedB P.reltol (O.measure s) = true ∧
                   stableB (O.measure s) = true)) := by
  intro fuel
  induction fuel with
  | zero =>
    intro st tr code s tr1 _ h
    exact absurd h (by simp [eqRun])
  | succ n ih =>
    intro st tr code s tr1 hinv h
    rw [eqRun] at h
    rcases hstep : eqStep P O st with ⟨o | st1, oe⟩
    · rw [hstep] at h
      simp only [Option.some.injEq, Prod.mk.injEq] at h
      obtain ⟨h3, _⟩ := h
      rw [h3] at hstep
      exact eqStep_inl P O st code s oe h2 hinv hstep
    · cases oe with
      | none =>
        rw [hstep] at h
        exact ih st1 tr code s tr1 (eqStep_inr P O st st1 none hstep) h
      | some e =>
        rw [hstep] at h
        exact ih st1 (tr ++ [e]) code s tr1 (eqStep_inr P O st st1 (some e) hstep) h

/-- C1 amended: provided itermax is at least 2 (so that the restart
check of line 705 cannot fire before the first residual evaluation),
equilibrate returns the stable-success code 1 if and only if, at the
pose at which it stops iterating, all three scaled residual components
are below reltol in absolute value and both metacentric heights are
strictly positive. -/
theorem c1_amended {S : Type} (P : SolverParams) (O : Oracle S) (s0 : S)
    (fuel : ℕ) (code : ℕ) (s : S) (tr : List TraceEntry)
    (h2 : 2 ≤ P.itermax)
    (h : equilibrate P O s0 fuel = some ((code, s), tr)) :
    code = 1 ↔ (convergedB P.reltol (O.measure s) = true ∧
                stableB (O.measure s) = true) :=
  eqRun_code_iff P O h2 fuel ⟨s0, 0, 0, 0, 0, 0, false⟩ [] code s tr
    (Or.inl ⟨rfl, rfl, rfl⟩) h

/-- C1 amended witness: a run with itermax 2 that converges at once. -/
theorem c1_amended_witness :
    (1 = 1 ↔ (convergedB pC1ok.reltol (oracleGood.measure ()) = true ∧
              stableB (oracleGood.measure ()) = true)) :=
  c1_amended pC1ok oracleGood () 4 1 () [] (by decide)
    (by with_unfolding_all decide)

/-! ## C5 amended: the relaxation caps are the constant parameters -/

theorem eqBody_entry {S : Type} (P : SolverParams) (O : Oracle S) (st : LoopSt S)
    (r : (ℕ × S) ⊕ LoopSt S) (e : TraceEntry)
    (h : eqBody P O st = (r, some e)) : entryFixed P e := by
  unfold eqBody at h
  dsimp only at h
  split_ifs at h with h1 h2 h3
  · simp at h
  · simp at h
  · simp at h
  · simp only [Prod.mk.injEq, Option.some.injEq] at h
    obtain ⟨_, he⟩ := h
    rw [← he]
    exact ⟨rfl, rfl, rfl, rfl, rfl, rfl⟩

theorem eqStep_entry {S : Type} (P : SolverParams) (O : Oracle S) (st : LoopSt S)
    (r : (ℕ × S) ⊕ LoopSt S) (e : TraceEntry)
    (h : eqStep P O st = (r, some e)) : entryFixed P e := by
  unfold eqStep at h
  split_ifs at h with ht hb
  · exact eqBody_entry P O _ r e h
  · simp at h
  · exact eqBody_entry P O _ r e h

theorem eqRun_entries {S : Type} (P : SolverParams) (O : Oracle S) :
    ∀ (fuel : ℕ) (st : LoopSt S) (tr : List TraceEntry) (out : ℕ × S)
      (tr1 : List TraceEntry),
      (∀ e ∈ tr, entryFixed P e) →
      eqRun P O fuel st tr = some (out, tr1) →
      ∀ e ∈ tr1, entryFixed P e := by
  intro fuel
  induction fuel with
  | zero =>
    intro st tr out tr1 _ h
    exact absurd h (by simp [eqRun])
  | succ n ih =>
    intro st tr out tr1 hpre h
    rw [eqRun] at h
    rcases hstep : eqStep P O st with ⟨o | st1, oe⟩
    · rw [hstep] at h
      simp only [Option.some.injEq, Prod.mk.injEq] at h
      obtain ⟨_, h4⟩ := h
      rw [← h4]
      exact hpre
    · cases oe with
      | none =>
        rw [hstep] at h
        exact ih st1 tr out tr1 hpre h
      | some e2 =>
        rw [hstep] at h
        refine ih st1 (tr ++ [e2]) out tr1 ?_ h
        intro e he
        rcases List.mem_append.mp he with h4 | h4
        · exact hpre e h4
        · rw [List.mem_singleton] at h4
          rw [h4]
          exact eqStep_entry P O st _ e2 hstep

/-- C5 amended: no sign-reversal adaptation of the relaxation caps
exists: at every iteration of the balancing loop, every recorded
relaxation event uses exactly the constant caps z_relax and the two
radian theta caps, and the applied correction is the plain copysign
clamp of the solved correction at those constant caps, regardless of
the sign history of successive corrections. -/
theorem c5_amended {S : Type} (P : SolverParams) (O : Oracle S) (s0 : S)
    (fuel : ℕ) (out : ℕ × S) (tr : List TraceEntry)
    (h : equilibrate P O s0 fuel = some (out, tr)) :
    ∀ e ∈ tr, entryFixed P e :=
  eqRun_entries P O fuel ⟨s0, 0, 0, 0, 0, 0, false⟩ [] out tr (by simp) h

/-- C5 amended witness: the first recorded relaxation event of the
oracle5 run uses the constant caps. -/
theorem c5_amended_witness : entryFixed p5 c5e1 :=
  c5_amended p5 oracle5 0 9 (1, 3) [c5e1, c5e2]
    (by with_unfolding_all decide) c5e1 (by simp)

/-! ## List helper lemmas for the clipping invariants -/

theorem insertAt_length {α : Type} (x : α) :
    ∀ (n : ℕ) (l : List α), (insertAt n x l).length = l.length + 1 := by
  intro n
  induction n with
  | zero => intro l; rfl
  | succ m ih =>
    intro l
    cases l with
    | nil => rfl
    | cons a l' => simp [insertAt, ih]

theorem insertAt_getD_lt {α : Type} (d x : α) :
    ∀ (n : ℕ) (l : List α) (j : ℕ), j < n → n ≤ l.length →
      (insertAt n x l).getD j d = l.getD j d := by
  intro n
  induction n with
  | zero => intro l j hj _; exact absurd hj (Nat.not_lt_zero j)
  | succ m ih =>
    intro l j hj hn
    cases l with
    | nil => simp at hn
    | cons a l' =>
      cases j with
      | zero => rfl
      | succ k =>
        simp only [insertAt, List.getD_cons_succ]
        exact ih l' k (Nat.lt_of_succ_lt_succ hj) (Nat.le_of_succ_le_succ hn)

theorem insertAt_getLastD {α : Type} (x : α) :
    ∀ (n : ℕ) (l : List α) (d : α), n < l.length →
      (insertAt n x l).getLastD d = l.getLastD d := by
  intro n
  induction n with
  | zero =>
    intro l d hl
    cases l with
    | nil => simp at hl
    | cons a l' =>
      show (x :: a :: l').getLastD d = (a :: l').getLastD d
      rw [List.getLastD_cons, List.getLastD_cons, List.getLastD_cons]
  | succ m ih =>
    intro l d hl
    cases l with
    | nil => simp at hl
    | cons a l' =>
      have hm : m < l'.length := Nat.lt_of_succ_lt_succ hl
      cases l' with
      | nil => simp at hm
      | cons b l'' =>
        show (a :: insertAt m x (b :: l'')).getLastD d = (a :: b :: l'').getLastD d
        rw [List.getLastD_cons, List.getLastD_cons]
        exact ih (b :: l'') a hm

theorem insertAt_zip {α β : Type} (x : α) (y : β) :
    ∀ (n : ℕ) (l : List α) (m : List β), l.length = m.length →
      (insertAt n x l).zip (insertAt n y m) = insertAt n (x, y) (l.zip m) := by
  intro n
  induction n with
  | zero => intro l m _; rfl
  | succ k ih =>
    intro l m hlen
    cases l with
    | nil =>
      cases m with
      | nil => rfl
      | cons b m' => simp at hlen
    | cons a l' =>
      cases m with
      | nil => simp at hlen
      | cons b m' =>
        simp only [insertAt, List.zip_cons_cons]
        rw [ih l' m' (by simpa using hlen)]
        rfl

theorem insertAt_mem_self {α : Type} (x : α) :
    ∀ (n : ℕ) (l : List α), x ∈ insertAt n x l := by
  intro n
  induction n with
  | zero => intro l; exact List.mem_cons_self x l
  | succ m ih =>
    intro l
    cases l with
    | nil => exact List.mem_singleton_self x
    | cons a l' => exact List.mem_cons_of_mem a (ih l')

theorem insertAt_mem_of_mem {α : Type} (x a : α) :
    ∀ (n : ℕ) (l : List α), a ∈ l → a ∈ insertAt n x l := by
  intro n
  induction n with
  | zero => intro l h; exact List.mem_cons_of_mem x h
  | succ m ih =>
    intro l h
    cases l with
    | nil => simp at h
    | cons b l' =>
      rcases List.mem_cons.mp h with h1 | h1
      · rw [h1]; exact List.mem_cons_self b _
      · exact List.mem_cons_of_mem b (ih l' h1)

theorem maskFilter_mem {α : Type} (l : List α) (m : List Bool) (x : α) :
    x ∈ maskFilter l m ↔ (x, true) ∈ l.zip m := by
  constructor
  · intro h
    rcases List.mem_map.mp h with ⟨pr, hpr, hx⟩
    rcases List.mem_filter.mp hpr with ⟨hz, hb⟩
    have hpx : pr = (x, true) := Prod.ext hx hb
    rw [← hpx]
    exact hz
  · intro h
    exact List.mem_map.mpr ⟨(x, true), List.mem_filter.mpr ⟨h, rfl⟩, rfl⟩

theorem zip_map_pair {α β : Type} (f : α → β) :
    ∀ (l : List α) (pr : α × β), pr ∈ l.zip (l.map f) → pr.2 = f pr.1 := by
  intro l
  induction l with
  | nil => intro pr h; simp at h
  | cons a l' ih =>
    intro pr h
    simp only [List.map_cons, List.zip_cons_cons, List.mem_cons] at h
    rcases h with h1 | h1
    · rw [h1]
    · exact ih pr h1

theorem getD_map_keep {α β : Type} (f : α → β) (d : α) (e : β) :
    ∀ (l : List α) (j : ℕ), j < l.length →
      (l.map f).getD j e = f (l.getD j d) := by
  intro l
  induction l with
  | nil => intro j hj; simp at hj
  | cons a l' ih =>
    intro j hj
    cases j with
    | zero => rfl
    | succ k => exact ih k (by simpa using hj)

theorem getLastD_map_keep {α β : Type} (f : α → β) (d : α) (e : β) :
    ∀ (a : α) (l : List α),
      ((a :: l).map f).getLastD e = f ((a :: l).getLastD d) := by
  intro a l
  induction l generalizing a with
  | nil => rfl
  | cons b l' ih =>
    show ((b :: l').map f).getLastD (f a) = f ((b :: l').getLastD a)
    exact ih b

/-! ## Cache and intersection lemmas -/

theorem dinsert_mem {β : Type} (k : ℕ) (v : β) (d : List (ℕ × β)) (a : ℕ × β)
    (h : a ∈ dinsert k v d) : a = (k, v) ∨ a ∈ d := by
  unfold dinsert at h
  split_ifs at h with hc
  · rcases List.mem_map.mp h with ⟨pr, hpr, heq⟩
    by_cases hk : pr.1 = k
    · left
      rw [← heq]
      simp [hk]
    · right
      rw [← heq]
      simp only [if_neg hk]
      exact hpr
  · rcases List.mem_append.mp h with h1 | h1
    · right; exact h1
    · left; simpa using h1

theorem alookup_mem {β : Type} (d : List (ℕ × β)) (k : ℕ) (v : β)
    (h : alookup d k = some v) : (k, v) ∈ d := by
  unfold alookup at h
  rcases hf : d.find? (fun p => p.1 = k) with _ | pr
  · rw [hf] at h; simp at h
  · rw [hf] at h
    simp at h
    have hmem := List.mem_of_find?_eq_some hf
    have hkey := List.find?_some hf
    simp only [decide_eq_true_eq] at hkey
    have hpr2 : pr = (k, v) := Prod.ext hkey h
    rw [← hpr2]
    exact hmem

theorem edgesListOk_dinsert (nv k : ℕ) (v : List ℕ × List ℕ)
    (d : List (ℕ × (List ℕ × List ℕ))) (hd : edgesListOk nv d)
    (hv : v.1.length = v.2.length ∧ ∀ q ∈ v.2, nv ≤ q) :
    edgesListOk nv (dinsert k v d) := by
  intro kv hkv
  rcases dinsert_mem k v d kv hkv with h | h
  · rw [h]; exact hv
  · exact hd kv h

theorem keepB_ne_planePos (V : List Pt3) (p : PlaneMM) (tol : ℚ) (i j : ℕ)
    (h : keepB V p tol i ≠ keepB V p tol j) :
    planePos p (V.getD i (0, 0, 0)) ≠ planePos p (V.getD j (0, 0, 0)) := by
  intro he
  apply h
  unfold keepB keepFlag
  rw [he]

theorem planePos_intersection (p : PlaneMM) (V0 V1 : Pt3)
    (hne : planePos p V0 ≠ planePos p V1) :
    planePos p (get_edge_intersection_by_plane p V0 V1) = 0 := by
  have hsub : planePos p V0 - planePos p V1 ≠ 0 := sub_ne_zero.mpr hne
  have key : planePos p (get_edge_intersection_by_plane p V0 V1) =
      planePos p V0 + planePos p V0 / (planePos p V0 - planePos p V1) *
        (planePos p V1 - planePos p V0) := by
    simp only [planePos, dot3, get_edge_intersection_by_plane]
    ring
  rw [key]
  rw [show planePos p V1 - planePos p V0 =
        -(planePos p V0 - planePos p V1) from by ring]
  rw [mul_neg, div_mul_cancel₀ _ hsub]
  ring

theorem storeEdgeHalf1_spec (V : List Pt3) (p : PlaneMM) (nv : ℕ) (st : ClipSt)
    (iV0 iV1 : ℕ) (hok : edgesOk nv st) :
    edgesOk nv (storeEdgeHalf1 V p nv st iV0 iV1).2 ∧
    nv ≤ (storeEdgeHalf1 V p nv st iV0 iV1).1 ∧
    ((storeEdgeHalf1 V p nv st iV0 iV1).2.newV = st.newV ∨
      (storeEdgeHalf1 V p nv st iV0 iV1).2.newV = st.newV ++
        [get_edge_intersection_by_plane p (V.getD iV0 (0, 0, 0)) (V.getD iV1 (0, 0, 0))]) ∧
    (storeEdgeHalf1 V p nv st iV0 iV1).2.F = st.F ∧
    (storeEdgeHalf1 V p nv st iV0 iV1).2.newF = st.newF ∧
    (storeEdgeHalf1 V p nv st iV0 iV1).2.bd = st.bd ∧
    (storeEdgeHalf1 V p nv st iV0 iV1).2.err = st.err := by
  rcases h0 : alookup st.edges iV0 with _ | nq
  · simp only [storeEdgeHalf1, h0]
    refine ⟨?_, Nat.le_add_right nv _, Or.inr trivial, trivial, trivial, trivial, trivial⟩
    exact edgesListOk_dinsert nv iV0 ([iV1], [nv + st.newV.length]) st.edges hok
      ⟨rfl, by intro q hq; simp at hq; omega⟩
  · simp only [storeEdgeHalf1, h0]
    by_cases hmem : iV1 ∈ nq.1
    · simp only [if_pos hmem]
      refine ⟨hok, ?_, Or.inl trivial, trivial, trivial, trivial, trivial⟩
      have hkv := alookup_mem st.edges iV0 nq h0
      obtain ⟨hlen, hq⟩ := hok (iV0, nq) hkv
      have hidx : idxOf nq.1 iV1 < nq.2.length := by
        rw [← hlen]
        exact List.findIdx_lt_length_of_exists ⟨iV1, hmem, by simp⟩
      have hgd : nq.2.getD (idxOf nq.1 iV1) 0 = nq.2[idxOf nq.1 iV1] := by
        rw [List.getD_eq_getElem?_getD, List.getElem?_eq_getElem hidx]
        rfl
      rw [hgd]
      exact hq _ (List.getElem_mem hidx)
    · simp only [if_neg hmem]
      refine ⟨?_, Nat.le_add_right nv _, Or.inr trivial, trivial, trivial, trivial, trivial⟩
      have hkv := alookup_mem st.edges iV0 nq h0
      obtain ⟨hlen, hq⟩ := hok (iV0, nq) hkv
      refine edgesListOk_dinsert nv iV0 _ st.edges hok ⟨by simp [hlen], ?_⟩
      intro q hq2
      rcases List.mem_append.mp hq2 with h1 | h1
      · exact hq q h1
      · simp at h1; omega

theorem storeEdgeHalf2_spec (nv : ℕ) (st : ClipSt) (iV0 iV1 idQ : ℕ)
    (hok : edgesOk nv st) (hid : nv ≤ idQ) :
    edgesOk nv (storeEdgeHalf2 st iV0 iV1 idQ) ∧
    (storeEdgeHalf2 st iV0 iV1 idQ).newV = st.newV ∧
    (storeEdgeHalf2 st iV0 iV1 idQ).F = st.F ∧
    (storeEdgeHalf2 st iV0 iV1 idQ).newF = st.newF ∧
    (storeEdgeHalf2 st iV0 iV1 idQ).bd = st.bd ∧
    (storeEdgeHalf2 st iV0 iV1 idQ).err = st.err := by
  rcases h0 : alookup st.edges iV1 with _ | nq
  · simp only [storeEdgeHalf2, h0]
    refine ⟨?_, trivial, trivial, trivial, trivial, trivial⟩
    exact edgesListOk_dinsert nv iV1 ([iV0], [idQ]) st.edges hok
      ⟨rfl, by intro q hq; simp at hq; omega⟩
  · simp only [storeEdgeHalf2, h0]
    by_cases hmem : iV0 ∈ nq.1
    · simp only [if_pos hmem]
      exact ⟨hok, trivial, trivial, trivial, trivial, trivial⟩
    · simp only [if_neg hmem]
      refine ⟨?_, trivial, trivial, trivial, trivial, trivial⟩
      have hkv := alookup_mem st.edges iV1 nq h0
      obtain ⟨hlen, hq⟩ := hok (iV1, nq) hkv
      refine edgesListOk_dinsert nv iV1 _ st.edges hok ⟨by simp [hlen], ?_⟩
      intro q hq2
      rcases List.mem_append.mp hq2 with h1 | h1
      · exact hq q h1
      · simp at h1; omega

theorem storeEdge_spec (V : List Pt3) (p : PlaneMM) (nv : ℕ) (st : ClipSt)
    (iV0 iV1 : ℕ) (hok : edgesOk nv st) :
    edgesOk nv (storeEdge V p nv st iV0 iV1).2 ∧
    nv ≤ (storeEdge V p nv st iV0 iV1).1 ∧
    ((storeEdge V p nv st iV0 iV1).2.newV = st.newV ∨
      (storeEdge V p nv st iV0 iV1).2.newV = st.newV ++
        [get_edge_intersection_by_plane p (V.getD iV0 (0, 0, 0)) (V.getD iV1 (0, 0, 0))]) ∧
    (storeEdge V p nv st iV0 iV1).2.F = st.F ∧
    (storeEdge V p nv st iV0 iV1).2.newF = st.newF ∧
    (storeEdge V p nv st iV0 iV1).2.bd = st.bd ∧
    (storeEdge V p nv st iV0 iV1).2.err = st.err := by
  obtain ⟨h1ok, h1id, h1new, h1F, h1nF, h1bd, h1err⟩ :=
    storeEdgeHalf1_spec V p nv st iV0 iV1 hok
  obtain ⟨h2ok, h2new, h2F, h2nF, h2bd, h2err⟩ :=
    storeEdgeHalf2_spec nv (storeEdgeHalf1 V p nv st iV0 iV1).2 iV0 iV1
      (storeEdgeHalf1 V p nv st iV0 iV1).1 h1ok h1id
  unfold storeEdge
  refine ⟨h2ok, h1id, ?_, by rw [h2F, h1F], by rw [h2nF, h1nF],
    by rw [h2bd, h1bd], by rw [h2err, h1err]⟩
  rw [h2new]
  exact h1new

/-! ## The ring-walk invariants -/

theorem ringLoop_spec (V : List Pt3) (p : PlaneMM) (tol : ℚ) (nv : ℕ) :
    ∀ (k : ℕ) (fl : List ℕ) (pl : List Bool) (st : ClipSt),
      fl.length = pl.length →
      k < fl.length →
      (∀ j, j ≤ k → pl.getD j false = keepB V p tol (fl.getD j 0)) →
      pl.getLastD false = keepB V p tol (fl.getLastD 0) →
      edgesOk nv st → newVok p st →
      edgesOk nv (ringLoop V p nv k fl pl st).2.2 ∧
      newVok p (ringLoop V p nv k fl pl st).2.2 ∧
      (ringLoop V p nv k fl pl st).2.2.F = st.F ∧
      (ringLoop V p nv k fl pl st).2.2.newF = st.newF ∧
      (ringLoop V p nv k fl pl st).2.2.bd = st.bd ∧
      (ringLoop V p nv k fl pl st).2.2.err = st.err ∧
      (∀ pr ∈ fl.zip pl,
        pr ∈ (ringLoop V p nv k fl pl st).1.zip (ringLoop V p nv k fl pl st).2.1) ∧
      (((∃ j, j + 1 ≤ k ∧ pl.getD j false ≠ pl.getD (j + 1) false) ∨
          pl.getLastD false ≠ pl.getD 0 false) →
        ∃ pr ∈ (ringLoop V p nv k fl pl st).1.zip (ringLoop V p nv k fl pl st).2.1,
          pr.2 = true ∧ nv ≤ pr.1) := by
  intro k
  induction k with
  | zero =>
    intro fl pl st hlen hk halign hlast hok hnew
    by_cases hcond : pl.getLastD false ≠ pl.getD 0 false
    · simp only [ringLoop, if_pos hcond]
      obtain ⟨e1, e2, e3, e4, e5, e6, e7⟩ :=
        storeEdge_spec V p nv st (fl.getLastD 0) (fl.getD 0 0) hok
      refine ⟨e1, ?_, e4, e5, e6, e7, ?_, ?_⟩
      · intro q hq
        rcases e3 with h3 | h3
        · rw [h3] at hq
          exact hnew q hq
        · rw [h3] at hq
          rcases List.mem_append.mp hq with h4 | h4
          · exact hnew q h4
          · rw [List.mem_singleton] at h4
            rw [h4]
            apply planePos_intersection
            apply keepB_ne_planePos
            rw [← hlast, ← halign 0 (Nat.le_refl 0)]
            exact hcond
      · intro pr hpr
        exact List.mem_cons_of_mem _ hpr
      · intro _
        refine ⟨((storeEdge V p nv st (fl.getLastD 0) (fl.getD 0 0)).1, true), ?_, rfl, e2⟩
        exact List.mem_cons_self _ _
    · simp only [ringLoop, if_neg hcond]
      refine ⟨hok, hnew, trivial, trivial, trivial, trivial, fun pr hpr => hpr, ?_⟩
      intro hd
      rcases hd with ⟨j, hj, _⟩ | hd
      · omega
      · exact absurd hd hcond
  | succ k ih =>
    intro fl pl st hlen hk halign hlast hok hnew
    by_cases hcond : pl.getD k false ≠ pl.getD (k + 1) false
    · simp only [ringLoop, if_pos hcond]
      obtain ⟨e1, e2, e3, e4, e5, e6, e7⟩ :=
        storeEdge_spec V p nv st (fl.getD k 0) (fl.getD (k + 1) 0) hok
      have hnew2 : newVok p (storeEdge V p nv st (fl.getD k 0) (fl.getD (k + 1) 0)).2 := by
        intro q hq
        rcases e3 with h3 | h3
        · rw [h3] at hq
          exact hnew q hq
        · rw [h3] at hq
          rcases List.mem_append.mp hq with h4 | h4
          · exact hnew q h4
          · rw [List.mem_singleton] at h4
            rw [h4]
            apply planePos_intersection
            apply keepB_ne_planePos
            rw [← halign k (Nat.le_succ_of_le (Nat.le_refl k)),
                ← halign (k + 1) (Nat.le_refl (k + 1))]
            exact hcond
      have hkpl : k + 1 ≤ pl.length := by rw [← hlen]; exact Nat.le_of_lt hk
      have hkfl : k + 1 ≤ fl.length := Nat.le_of_lt hk
      have hlen1 : (insertAt (k + 1) (storeEdge V p nv st (fl.getD k 0) (fl.getD (k + 1) 0)).1 fl).length =
          (insertAt (k + 1) true pl).length := by
        rw [insertAt_length, insertAt_length, hlen]
      have hk1 : k < (insertAt (k + 1) (storeEdge V p nv st (fl.getD k 0) (fl.getD (k + 1) 0)).1 fl).length := by
        rw [insertAt_length]
        omega
      have halign1 : ∀ j, j ≤ k →
          (insertAt (k + 1) true pl).getD j false =
            keepB V p tol ((insertAt (k + 1) (storeEdge V p nv st (fl.getD k 0) (fl.getD (k + 1) 0)).1 fl).getD j 0) := by
        intro j hj
        rw [insertAt_getD_lt false true (k + 1) pl j (Nat.lt_succ_of_le hj) hkpl]
        rw [insertAt_getD_lt 0 _ (k + 1) fl j (Nat.lt_succ_of_le hj) hkfl]
        exact halign j (Nat.le_succ_of_le hj)
      have hlast1 : (insertAt (k + 1) true pl).getLastD false =
          keepB V p tol ((insertAt (k + 1) (storeEdge V p nv st (fl.getD k 0) (fl.getD (k + 1) 0)).1 fl).getLastD 0) := by
        rw [insertAt_getLastD true (k + 1) pl false (by omega)]
        rw [insertAt_getLastD _ (k + 1) fl 0 hk]
        exact hlast
      obtain ⟨i1, i2, i3, i4, i5, i6, i7, i8⟩ :=
        ih (insertAt (k + 1) (storeEdge V p nv st (fl.getD k 0) (fl.getD (k + 1) 0)).1 fl)
          (insertAt (k + 1) true pl)
          (storeEdge V p nv st (fl.getD k 0) (fl.getD (k + 1) 0)).2
          hlen1 hk1 halign1 hlast1 e1 hnew2
      have hzip : ∀ pr ∈ fl.zip pl,
          pr ∈ (insertAt (k + 1) (storeEdge V p nv st (fl.getD k 0) (fl.getD (k + 1) 0)).1 fl).zip
            (insertAt (k + 1) true pl) := by
        intro pr hpr
        rw [insertAt_zip _ _ (k + 1) fl pl hlen]
        exact insertAt_mem_of_mem _ pr (k + 1) _ hpr
      refine ⟨i1, i2, by rw [i3, e4], by rw [i4, e5], by rw [i5, e6], by rw [i6, e7], ?_, ?_⟩
      · intro pr hpr
        exact i7 pr (hzip pr hpr)
      · intro _
        refine ⟨((storeEdge V p nv st (fl.getD k 0) (fl.getD (k + 1) 0)).1, true), ?_, rfl, e2⟩
        apply i7
        rw [insertAt_zip _ _ (k + 1) fl pl hlen]
        exact insertAt_mem_self _ (k + 1) _
    · simp only [ringLoop, if_neg hcond]
      have halign1 : ∀ j, j ≤ k → pl.getD j false = keepB V p tol (fl.getD j 0) := by
        intro j hj
        exact halign j (Nat.le_succ_of_le hj)
      obtain ⟨i1, i2, i3, i4, i5, i6, i7, i8⟩ :=
        ih fl pl st hlen (Nat.lt_of_succ_lt hk) halign1 hlast hok hnew
      refine ⟨i1, i2, i3, i4, i5, i6, i7, ?_⟩
      intro hd
      apply i8
      rcases hd with ⟨j, hj, hne⟩ | hd
      · left
        refine ⟨j, ?_, hne⟩
        rcases Nat.lt_or_ge (j + 1) (k + 1) with h1 | h1
        · omega
        · exfalso
          have : j = k := by omega
          rw [this] at hne
          exact hcond hne
      · right
        exact hd

theorem getD_set_ne {α : Type} (l : List α) (i j : ℕ) (a d : α) (h : i ≠ j) :
    (l.set i a).getD j d = l.getD j d := by
  rw [List.getD_eq_getElem?_getD, List.getD_eq_getElem?_getD, List.getElem?_set_ne h]

theorem faceNb_pos (row : List ℕ) : 0 < faceNb row := by
  unfold faceNb
  split <;> omega

theorem faceNb_le (row : List ℕ) : faceNb row ≤ 4 := by
  unfold faceNb
  split <;> omega

theorem faceVerts_length (row : List ℕ) (hrow : row.length = 4) :
    (faceVerts row).length = faceNb row := by
  unfold faceVerts
  rw [List.length_map, List.length_take, hrow]
  have h1 := faceNb_le row
  omega

/-! ## Per-face invariants of the clipping loop -/

theorem processClippedFace_spec (V : List Pt3) (p : PlaneMM) (tol : ℚ)
    (getPoly : Bool) (st : ClipSt) (fid : ℕ) (row : List ℕ)
    (hrow : row.length = 4) (hok : edgesOk V.length st) (hnew : newVok p st) :
    edgesOk V.length (processClippedFace V p tol V.length getPoly st fid row) ∧
    newVok p (processClippedFace V p tol V.length getPoly st fid row) ∧
    (processClippedFace V p tol V.length getPoly st fid row).F.length = st.F.length ∧
    (∀ j, j ≠ fid →
      (processClippedFace V p tol V.length getPoly st fid row).F.getD j [] =
        st.F.getD j []) ∧
    (st.err = true →
      (processClippedFace V p tol V.length getPoly st fid row).err = true) := by
  have hfnb := faceNb_pos row
  have hfl := faceVerts_length row hrow
  obtain ⟨a, rest, hfe⟩ : ∃ a rest, faceVerts row = a :: rest := by
    cases hc : faceVerts row with
    | nil => rw [hc] at hfl; simp at hfl; omega
    | cons a r => exact ⟨a, r, rfl⟩
  have halign : ∀ j, j ≤ faceNb row - 1 →
      ((faceVerts row).map (fun i => keepB V p tol i)).getD j false =
        keepB V p tol ((faceVerts row).getD j 0) := by
    intro j hj
    exact getD_map_keep _ 0 false (faceVerts row) j (by omega)
  have hlast : ((faceVerts row).map (fun i => keepB V p tol i)).getLastD false =
      keepB V p tol ((faceVerts row).getLastD 0) := by
    rw [hfe]
    exact getLastD_map_keep _ 0 false a rest
  obtain ⟨i1, i2, i3, i4, i5, i6, i7, i8⟩ :=
    ringLoop_spec V p tol V.length (faceNb row - 1) (faceVerts row)
      ((faceVerts row).map (fun i => keepB V p tol i)) st
      (by rw [List.length_map]) (by omega) halign hlast hok hnew
  refine ⟨?_, ?_, ?_, ?_, ?_⟩
  · unfold processClippedFace
    dsimp only
    split_ifs <;> exact i1
  · unfold processClippedFace
    dsimp only
    split_ifs <;> exact i2
  · unfold processClippedFace
    dsimp only
    split_ifs <;> simp only [List.length_set] <;> rw [i3]
  · intro j hj
    unfold processClippedFace
    dsimp only
    split_ifs <;>
      first
        | (rw [getD_set_ne _ fid j _ _ (fun he => hj he.symm), i3])
        | (rw [i3])
  · intro herr
    unfold processClippedFace
    dsimp only
    split_ifs <;> simp only [] <;> rw [i6] <;> exact herr

/-! ## Whole-loop invariants and the second clipping run -/

theorem foldl_inv {α β : Type} (P : β → Prop) (f : β → α → β) :
    ∀ (l : List α) (b : β), (∀ b' a, a ∈ l → P b' → P (f b' a)) → P b →
      P (l.foldl f b) := by
  intro l
  induction l with
  | nil => intro b _ hb; exact hb
  | cons a l' ih =>
    intro b hstep hb
    exact ih (f b a)
      (fun b' x hx => hstep b' x (List.mem_cons_of_mem a hx))
      (hstep b a (List.mem_cons_self a l') hb)

theorem getD_mem_of_lt {α : Type} (l : List α) (i : ℕ) (d : α) (h : i < l.length) :
    l.getD i d ∈ l := by
  have hg : l.getD i d = l[i] := by
    rw [List.getD_eq_getElem?_getD, List.getElem?_eq_getElem h]
    rfl
  rw [hg]
  exact List.getElem_mem h

theorem clipCore_inv (V : List Pt3) (F : List (List ℕ)) (p : PlaneMM) (tol : ℚ)
    (getPoly : Bool) (hRows : ∀ row ∈ F, row.length = 4) :
    edgesOk V.length (clipCore V F p tol getPoly) ∧
    newVok p (clipCore V F p tol getPoly) := by
  unfold clipCore
  dsimp only
  apply foldl_inv (fun st => edgesOk V.length st ∧ newVok p st)
  · intro st it hit hP
    obtain ⟨i, hi, hit2⟩ := List.mem_map.mp hit
    have hiLt : i < F.length := by
      have hm := List.mem_filter.mp hi
      exact List.mem_range.mp hm.1
    have hrow4 : (F.getD i []).length = 4 :=
      hRows (F.getD i []) (getD_mem_of_lt F i [] hiLt)
    rw [← hit2]
    obtain ⟨c1, c2, _, _, _⟩ :=
      processClippedFace_spec V p tol getPoly st i (F.getD i []) hrow4 hP.1 hP.2
    exact ⟨c1, c2⟩
  · constructor
    · intro kv hkv
      simp at hkv
    · intro q hq
      simp at hq

theorem clipV_pos (V : List Pt3) (F : List (List ℕ)) (p : PlaneMM) (tol : ℚ)
    (getPoly : Bool) (r : ClipResult) (htol : 0 ≤ tol)
    (hRows : ∀ row ∈ F, row.length = 4)
    (h : clip_by_plane V F p tol getPoly = .ok (.clipped r)) :
    ∀ v ∈ r.clipV, planePos p v ≤ tol := by
  obtain ⟨hedges, hnewv⟩ := clipCore_inv V F p tol getPoly hRows
  have hv : r.clipV = maskFilter (V ++ (clipCore V F p tol getPoly).newV)
      (V.map (keepFlag p tol) ++
        List.replicate (clipCore V F p tol getPoly).newV.length true) := by
    unfold clip_by_plane at h
    dsimp only at h
    by_cases h1 : (V.map (keepFlag p tol)).count true = V.length
    · rw [if_pos h1] at h; simp at h
    · rw [if_neg h1] at h
      by_cases h2 : (V.map (keepFlag p tol)).count true = 0
      · rw [if_pos h2] at h; simp at h
      · rw [if_neg h2] at h
        by_cases h3 : (clipCore V F p tol getPoly).err = true
        · rw [if_pos h3] at h; simp at h
        · rw [if_neg h3] at h
          cases getPoly with
          | false =>
            simp only [Bool.false_eq_true, if_false] at h
            simp only [Except.ok.injEq, ClipOut.clipped.injEq] at h
            rw [← h]
          | true =>
            simp only [if_true] at h
            rcases hs : stitchPolygons (clipCore V F p tol true).bd with e | polys
            · rw [hs] at h; simp at h
            · rw [hs] at h
              simp only [Except.ok.injEq, ClipOut.clipped.injEq] at h
              rw [← h]
  intro v hv2
  rw [hv] at hv2
  have hz := (maskFilter_mem _ _ v).mp hv2
  rw [List.zip_append (by rw [List.length_map])] at hz
  rcases List.mem_append.mp hz with hc | hc
  · have := zip_map_pair (keepFlag p tol) V (v, true) hc
    simp only at this
    have hk : keepFlag p tol v = true := this.symm
    unfold keepFlag at hk
    exact of_decide_eq_true hk
  · have := List.of_mem_zip hc
    have h0 : planePos p v = 0 := hnewv v this.1
    rw [h0]
    exact htol

theorem clip_allKept_short (V : List Pt3) (F : List (List ℕ)) (p : PlaneMM)
    (tol : ℚ) (getPoly : Bool) (hall : ∀ v ∈ V, planePos p v ≤ tol) :
    clip_by_plane V F p tol getPoly = .ok (.allKept V F) := by
  unfold clip_by_plane
  dsimp only
  rw [if_pos ?_]
  have hcnt : ∀ b ∈ V.map (keepFlag p tol), true = b := by
    intro b hb
    obtain ⟨v, hvm, hbe⟩ := List.mem_map.mp hb
    rw [← hbe]
    symm
    exact decide_eq_true (hall v hvm)
  rw [List.count_eq_length.mpr hcnt, List.length_map]

/-- C6 amended: re-running clip_by_plane on the clipped output with the
same plane and tolerance takes the all-vertices-kept short circuit of
lines 97-98 (in exact arithmetic every output vertex lies within
abs_tol of the plane): it returns the clipped vertex and face arrays
unchanged, hence the same clipped face count, but hands back no
boundary polygon list at all, so the boundary loop set of the first run
is not reproduced. -/
theorem c6_amended (V : List Pt3) (F : List (List ℕ)) (p : PlaneMM) (tol : ℚ)
    (r : ClipResult) (htol : 0 ≤ tol)
    (hRows : ∀ row ∈ F, row.length = 4)
    (h : clip_by_plane V F p tol true = .ok (.clipped r)) :
    clip_by_plane r.clipV r.clipF p tol true = .ok (.allKept r.clipV r.clipF) ∧
    polygonsOf (.allKept r.clipV r.clipF) = none :=
  ⟨clip_allKept_short r.clipV r.clipF p tol true
    (clipV_pos V F p tol true r htol hRows h), rfl⟩

/-- C6 amended witness: the clipped tetrahedron. -/
theorem c6_amended_witness :
    clip_by_plane tetRes.clipV tetRes.clipF planeOxy (1/1000) true =
      .ok (.allKept tetRes.clipV tetRes.clipF) ∧
    polygonsOf (.allKept tetRes.clipV tetRes.clipF) = none :=
  c6_amended tetV tetF planeOxy (1/1000) tetRes
    (by norm_num) (by decide) (by with_unfolding_all decide)

/-! ## The in-place face writes of the clipping loop -/

theorem getD_set_self {α : Type} (l : List α) (i : ℕ) (a d : α) (h : i < l.length) :
    (l.set i a).getD i d = a := by
  rw [List.getD_eq_getElem?_getD, List.getElem?_set_self h]
  rfl

theorem ringLoop_pl (V : List Pt3) (p : PlaneMM) (nv : ℕ) :
    ∀ (k : ℕ) (fl : List ℕ) (pl : List Bool) (st : ClipSt),
      (ringLoop V p nv k fl pl st).2.1 = plRun k pl := by
  intro k
  induction k with
  | zero =>
    intro fl pl st
    by_cases hcond : pl.getLastD false ≠ pl.getD 0 false
    · simp only [ringLoop, plRun, if_pos hcond]
    · simp only [ringLoop, plRun, if_neg hcond]
  | succ k ih =>
    intro fl pl st
    by_cases hcond : pl.getD k false ≠ pl.getD (k + 1) false
    · simp only [ringLoop, plRun, if_pos hcond]
      exact ih _ _ _
    · simp only [ringLoop, plRun, if_neg hcond]
      exact ih _ _ _

theorem ringLoop_len (V : List Pt3) (p : PlaneMM) (nv : ℕ) :
    ∀ (k : ℕ) (fl : List ℕ) (pl : List Bool) (st : ClipSt),
      fl.length = pl.length →
      (ringLoop V p nv k fl pl st).1.length = (ringLoop V p nv k fl pl st).2.1.length := by
  intro k
  induction k with
  | zero =>
    intro fl pl st hlen
    by_cases hcond : pl.getLastD false ≠ pl.getD 0 false
    · simp only [ringLoop, if_pos hcond]
      rw [insertAt_length, insertAt_length, hlen]
    · simp only [ringLoop, if_neg hcond]
      exact hlen
  | succ k ih =>
    intro fl pl st hlen
    by_cases hcond : pl.getD k false ≠ pl.getD (k + 1) false
    · simp only [ringLoop, if_pos hcond]
      exact ih _ _ _ (by rw [insertAt_length, insertAt_length, hlen])
    · simp only [ringLoop, if_neg hcond]
      exact ih _ _ _ hlen

theorem maskFilter_cons {α : Type} (a : α) (b : Bool) (l : List α) (m : List Bool) :
    maskFilter (a :: l) (b :: m) =
      if b then a :: maskFilter l m else maskFilter l m := by
  unfold maskFilter
  cases b with
  | true => simp [List.filter_cons]
  | false => simp [List.filter_cons]

theorem maskFilter_length {α : Type} :
    ∀ (l : List α) (m : List Bool), l.length = m.length →
      (maskFilter l m).length = m.count true := by
  intro l
  induction l with
  | nil =>
    intro m h
    cases m with
    | nil => rfl
    | cons b m' => simp at h
  | cons a l' ih =>
    intro m h
    cases m with
    | nil => simp at h
    | cons b m' =>
      have h' : l'.length = m'.length := by simpa using h
      rw [maskFilter_cons]
      cases b with
      | true =>
        simp only [if_true]
        rw [List.length_cons, ih m' h', List.count_cons_self]
      | false =>
        simp only [Bool.false_eq_true, if_false]
        rw [ih m' h', List.count_cons_of_ne (by simp)]

theorem plRun_three : ∀ a b c : Bool, (plRun 2 [a, b, c]).count true ≠ 5 := by
  decide

theorem exists_adj_diff : ∀ (l : List Bool), true ∈ l → false ∈ l →
    ∃ j, j + 1 < l.length ∧ l.getD j false ≠ l.getD (j + 1) false := by
  intro l
  induction l with
  | nil => intro ht; simp at ht
  | cons x xs ih =>
    intro ht hf
    cases xs with
    | nil =>
      rw [List.mem_singleton] at ht hf
      rw [← ht] at hf
      exact absurd hf (by simp)
    | cons y ys =>
      by_cases hxy : x = y
      · have ht' : true ∈ y :: ys := by
          rcases List.mem_cons.mp ht with h | h
          · rw [h, hxy]; exact List.mem_cons_self _ _
          · exact h
        have hf' : false ∈ y :: ys := by
          rcases List.mem_cons.mp hf with h | h
          · rw [h, hxy]; exact List.mem_cons_self _ _
          · exact h
        obtain ⟨j, hj, hd⟩ := ih ht' hf'
        refine ⟨j + 1, ?_, ?_⟩
        · simpa using Nat.succ_lt_succ hj
        · rw [List.getD_cons_succ, List.getD_cons_succ]
          exact hd
      · refine ⟨0, by simp, ?_⟩
        rw [List.getD_cons_zero, List.getD_cons_succ, List.getD_cons_zero]
        exact hxy

theorem belowB_keepB (V : List Pt3) (p : PlaneMM) (tol : ℚ) (i : ℕ)
    (htol : 0 ≤ tol) (h : belowB V p tol i = true) : keepB V p tol i = true := by
  unfold belowB at h
  unfold keepB keepFlag
  have h1 := of_decide_eq_true h
  exact decide_eq_true (by linarith)

theorem list_three {α : Type} : ∀ (l : List α), l.length = 3 →
    ∃ a b c, l = [a, b, c] := by
  intro l h
  cases l with
  | nil => simp at h
  | cons a t =>
    cases t with
    | nil => simp at h
    | cons b t2 =>
      cases t2 with
      | nil => simp at h
      | cons c t3 =>
        cases t3 with
        | nil => exact ⟨a, b, c, rfl⟩
        | cons d t4 => simp at h

/-- The row written in place at line 274 never equals the original row
of a face the loop clips: either the written row carries at least one
freshly appended intersection id (out of range for the caller's mesh),
or the pentagon split wrote a triangle-encoded row over a quadrangle
row. -/
theorem processClippedFace_write (V : List Pt3) (p : PlaneMM) (tol : ℚ)
    (getPoly : Bool) (st : ClipSt) (fid : ℕ) (row : List ℕ)
    (htol : 0 ≤ tol) (hrow : row.length = 4)
    (hval : ∀ x ∈ row, x ≤ V.length)
    (hclip : clippedFaceB V p tol row = true)
    (hfid : fid < st.F.length)
    (hok : edgesOk V.length st) (hnew : newVok p st) :
    (processClippedFace V p tol V.length getPoly st fid row).err = false →
    (processClippedFace V p tol V.length getPoly st fid row).F.getD fid [] ≠ row := by
  have hfnb := faceNb_pos row
  have hfl := faceVerts_length row hrow
  obtain ⟨a, rest, hfe⟩ : ∃ a rest, faceVerts row = a :: rest := by
    cases hc : faceVerts row with
    | nil => rw [hc] at hfl; simp at hfl; omega
    | cons a r => exact ⟨a, r, rfl⟩
  have halign : ∀ j, j ≤ faceNb row - 1 →
      ((faceVerts row).map (fun i => keepB V p tol i)).getD j false =
        keepB V p tol ((faceVerts row).getD j 0) := by
    intro j hj
    exact getD_map_keep _ 0 false (faceVerts row) j (by omega)
  have hlast : ((faceVerts row).map (fun i => keepB V p tol i)).getLastD false =
      keepB V p tol ((faceVerts row).getLastD 0) := by
    rw [hfe]
    exact getLastD_map_keep _ 0 false a rest
  obtain ⟨i1, i2, i3, i4, i5, i6, i7, i8⟩ :=
    ringLoop_spec V p tol V.length (faceNb row - 1) (faceVerts row)
      ((faceVerts row).map (fun i => keepB V p tol i)) st
      (by rw [List.length_map]) (by omega) halign hlast hok hnew
  have hclip2 := hclip
  unfold clippedFaceB at hclip2
  rw [Bool.and_eq_true, decide_eq_true_eq, decide_eq_true_eq] at hclip2
  obtain ⟨hlt, hbelow⟩ := hclip2
  have hFalse : false ∈ (faceVerts row).map (fun i => keepB V p tol i) := by
    by_contra hc
    have hall : ∀ i ∈ faceVerts row, keepB V p tol i = true := by
      intro i hi
      cases hk : keepB V p tol i with
      | true => rfl
      | false => exact absurd (List.mem_map.mpr ⟨i, hi, hk⟩) hc
    unfold nbKeptOfFace at hlt
    rw [List.countP_eq_length.mpr (fun i hi => by rw [hall i hi]), hfl] at hlt
    exact absurd hlt (lt_irrefl _)
  have hTrue : true ∈ (faceVerts row).map (fun i => keepB V p tol i) := by
    unfold nbBelowOfFace at hbelow
    obtain ⟨i, hi, hbi⟩ := List.countP_pos_iff.mp hbelow
    exact List.mem_map.mpr ⟨i, hi, belowB_keepB V p tol i htol hbi⟩
  obtain ⟨j, hj1, hjne⟩ := exists_adj_diff _ hTrue hFalse
  rw [List.length_map, hfl] at hj1
  obtain ⟨pr, hprMem, hprT, hprGe⟩ := i8 (Or.inl ⟨j, by omega, hjne⟩)
  have hmem0 : pr.1 ∈ maskFilter
      (ringLoop V p V.length (faceNb row - 1) (faceVerts row)
        ((faceVerts row).map (fun i => keepB V p tol i)) st).1
      (ringLoop V p V.length (faceNb row - 1) (faceVerts row)
        ((faceVerts row).map (fun i => keepB V p tol i)) st).2.1 := by
    rw [maskFilter_mem]
    have hpx : pr = (pr.1, true) := Prod.ext rfl hprT
    rw [← hpx]
    exact hprMem
  have hcount : (maskFilter
      (ringLoop V p V.length (faceNb row - 1) (faceVerts row)
        ((faceVerts row).map (fun i => keepB V p tol i)) st).1
      (ringLoop V p V.length (faceNb row - 1) (faceVerts row)
        ((faceVerts row).map (fun i => keepB V p tol i)) st).2.1).length =
      (plRun (faceNb row - 1) ((faceVerts row).map (fun i => keepB V p tol i))).count
        true := by
    rw [maskFilter_length _ _ (ringLoop_len V p V.length _ _ _ st (by rw [List.length_map])),
        ringLoop_pl]
  intro herr heq
  unfold processClippedFace at herr heq
  dsimp only at herr heq
  split_ifs at herr heq
  all_goals dsimp only at heq
  all_goals rw [i3, getD_set_self st.F fid _ [] hfid] at heq
  all_goals first
    | (rename_i hA hB hC hD
       simp only [List.length_append, hA, List.length_singleton] at hB
       omega)
    | (rename_i hA hB hC hD
       by_cases h03 : row.getD 0 0 = row.getD 3 0
       · have hnb3 : faceNb row = 3 := by unfold faceNb; rw [if_pos h03]
         obtain ⟨x, y, z, hxyz⟩ :=
           list_three ((faceVerts row).map (fun i => keepB V p tol i))
             (by rw [List.length_map, hfl, hnb3])
         rw [hcount, hnb3, hxyz] at hB
         norm_num at hB
         exact plRun_three x y z hB
       · exact h03 (by rw [← heq]; rfl))
    | (have hm : pr.1 + 1 ∈ row := by
         rw [← heq]
         exact List.mem_map.mpr ⟨pr.1, List.mem_append_left _ hmem0, rfl⟩
       have h9 := hval _ hm
       omega)
    | (have hm : pr.1 + 1 ∈ row := by
         rw [← heq]
         exact List.mem_map.mpr ⟨pr.1, hmem0, rfl⟩
       have h9 := hval _ hm
       omega)

theorem clipLoop_write (V : List Pt3) (F : List (List ℕ)) (p : PlaneMM) (tol : ℚ)
    (getPoly : Bool) (htol : 0 ≤ tol)
    (hVal : ∀ row ∈ F, ∀ x ∈ row, x ≤ V.length)
    (hRows : ∀ row ∈ F, row.length = 4) :
    ∀ (ids : List ℕ) (done : List ℕ) (st : ClipSt),
      ids.Nodup →
      (∀ i ∈ ids, i ∉ done) →
      (∀ i ∈ ids, i < F.length ∧ clippedFaceB V p tol (F.getD i []) = true) →
      st.F.length = F.length →
      (∀ g, g ∉ done → st.F.getD g [] = F.getD g []) →
      (st.err = false → ∀ g ∈ done, st.F.getD g [] ≠ F.getD g []) →
      edgesOk V.length st → newVok p st →
      ((ids.map (fun i => (i, F.getD i []))).foldl
          (fun s it => processClippedFace V p tol V.length getPoly s it.1 it.2)
          st).F.length = F.length ∧
      (∀ g, g ∉ done → g ∉ ids →
        ((ids.map (fun i => (i, F.getD i []))).foldl
            (fun s it => processClippedFace V p tol V.length getPoly s it.1 it.2)
            st).F.getD g [] = F.getD g []) ∧
      (((ids.map (fun i => (i, F.getD i []))).foldl
            (fun s it => processClippedFace V p tol V.length getPoly s it.1 it.2)
            st).err = false →
        ∀ g, g ∈ done ∨ g ∈ ids →
          ((ids.map (fun i => (i, F.getD i []))).foldl
              (fun s it => processClippedFace V p tol V.length getPoly s it.1 it.2)
              st).F.getD g [] ≠ F.getD g []) := by
  intro ids
  induction ids with
  | nil =>
    intro done st _ _ _ hlen hframe hdiff _ _
    simp only [List.map_nil, List.foldl_nil]
    refine ⟨hlen, fun g hg _ => hframe g hg, fun herr g hg => ?_⟩
    rcases hg with hg | hg
    · exact hdiff herr g hg
    · simp at hg
  | cons i ids' ih =>
    intro done st hnd hdone hprops hlen hframe hdiff hok hnew
    simp only [List.map_cons, List.foldl_cons]
    obtain ⟨hiF, hiClip⟩ := hprops i (List.mem_cons_self i ids')
    have hrowMem : F.getD i [] ∈ F := getD_mem_of_lt F i [] hiF
    have hrow4 : (F.getD i []).length = 4 := hRows _ hrowMem
    have hrowVal : ∀ x ∈ F.getD i [], x ≤ V.length := hVal _ hrowMem
    have hfid : i < st.F.length := by rw [hlen]; exact hiF
    obtain ⟨s1, s2, s3, s4, s5⟩ :=
      processClippedFace_spec V p tol getPoly st i (F.getD i []) hrow4 hok hnew
    have hwrite := processClippedFace_write V p tol getPoly st i (F.getD i [])
      htol hrow4 hrowVal hiClip hfid hok hnew
    have hiNotIn := (List.nodup_cons.mp hnd).1
    have hnd' := (List.nodup_cons.mp hnd).2
    have hlen' : (processClippedFace V p tol V.length getPoly st i
        (F.getD i [])).F.length = F.length := by rw [s3, hlen]
    have hframe' : ∀ g, g ∉ i :: done →
        (processClippedFace V p tol V.length getPoly st i
          (F.getD i [])).F.getD g [] = F.getD g [] := by
      intro g hg
      have hgi : g ≠ i := fun he => hg (he ▸ List.mem_cons_self i done)
      have hgd : g ∉ done := fun hd => hg (List.mem_cons_of_mem i hd)
      rw [s4 g hgi]
      exact hframe g hgd
    have hdiff' : (processClippedFace V p tol V.length getPoly st i
          (F.getD i [])).err = false →
        ∀ g ∈ i :: done,
          (processClippedFace V p tol V.length getPoly st i
            (F.getD i [])).F.getD g [] ≠ F.getD g [] := by
      intro herr g hg
      have hsterr : st.err = false := by
        cases hse : st.err with
        | false => rfl
        | true => rw [s5 hse] at herr; exact Bool.noConfusion herr
      rcases List.mem_cons.mp hg with hg | hg
      · rw [hg]
        exact hwrite herr
      · have hgi : g ≠ i := by
          intro he
          exact hdone i (List.mem_cons_self i ids') (he ▸ hg)
        rw [s4 g hgi]
        exact hdiff hsterr g hg
    have hdone' : ∀ j ∈ ids', j ∉ i :: done := by
      intro j hj hjc
      rcases List.mem_cons.mp hjc with h | h
      · exact hiNotIn (h ▸ hj)
      · exact hdone j (List.mem_cons_of_mem i hj) h
    have hprops' : ∀ j ∈ ids',
        j < F.length ∧ clippedFaceB V p tol (F.getD j []) = true :=
      fun j hj => hprops j (List.mem_cons_of_mem i hj)
    obtain ⟨c1, c2, c3⟩ :=
      ih (i :: done) (processClippedFace V p tol V.length getPoly st i (F.getD i []))
        hnd' hdone' hprops' hlen' hframe' hdiff' s1 s2
    refine ⟨c1, ?_, ?_⟩
    · intro g hgdone hgids
      have h1 : g ∉ i :: done := by
        intro hc
        rcases List.mem_cons.mp hc with h | h
        · exact hgids (h ▸ List.mem_cons_self i ids')
        · exact hgdone h
      have h2 : g ∉ ids' := fun hc => hgids (List.mem_cons_of_mem i hc)
      exact c2 g h1 h2
    · intro herr g hg
      apply c3 herr g
      rcases hg with hg | hg
      · exact Or.inl (List.mem_cons_of_mem i hg)
      · rcases List.mem_cons.mp hg with h | h
        · exact Or.inl (h ▸ List.mem_cons_self i done)
        · exact Or.inr h

/-- C10: on a straddling run (the general clipped return), clip_by_plane
mutates the caller's face array in place: the array handed back to the
caller keeps its length, every face the loop clipped has had its row
overwritten with a row different from the original (line 274), and every
other row is untouched - so the caller's original connectivity is lost
exactly at the straddling faces even though a separate clipped copy is
returned. -/
theorem c10_inplace_mutation (V : List Pt3) (F : List (List ℕ)) (p : PlaneMM)
    (tol : ℚ) (getPoly : Bool) (r : ClipResult) (htol : 0 ≤ tol)
    (hRows : ∀ row ∈ F, row.length = 4)
    (hVal : ∀ row ∈ F, ∀ x ∈ row, x ≤ V.length)
    (h : clip_by_plane V F p tol getPoly = .ok (.clipped r)) :
    r.callerF.length = F.length ∧
    (∀ g, g ∉ clippedIds V F p tol → r.callerF.getD g [] = F.getD g []) ∧
    (∀ g ∈ clippedIds V F p tol, r.callerF.getD g [] ≠ F.getD g []) := by
  have hkey : r.callerF = (clipCore V F p tol getPoly).F ∧
      (clipCore V F p tol getPoly).err = false := by
    unfold clip_by_plane at h
    dsimp only at h
    by_cases h1 : (V.map (keepFlag p tol)).count true = V.length
    · rw [if_pos h1] at h; simp at h
    · rw [if_neg h1] at h
      by_cases h2 : (V.map (keepFlag p tol)).count true = 0
      · rw [if_pos h2] at h; simp at h
      · rw [if_neg h2] at h
        by_cases h3 : (clipCore V F p tol getPoly).err = true
        · rw [if_pos h3] at h; simp at h
        · rw [if_neg h3] at h
          refine ⟨?_, by simpa using h3⟩
          cases getPoly with
          | false =>
            simp only [Bool.false_eq_true, if_false] at h
            simp only [Except.ok.injEq, ClipOut.clipped.injEq] at h
            rw [← h]
          | true =>
            simp only [if_true] at h
            rcases hs : stitchPolygons (clipCore V F p tol true).bd with e | polys
            · rw [hs] at h; simp at h
            · rw [hs] at h
              simp only [Except.ok.injEq, ClipOut.clipped.injEq] at h
              rw [← h]
  obtain ⟨hcall, herr0⟩ := hkey
  have hids : ∀ i ∈ clippedIds V F p tol,
      i < F.length ∧ clippedFaceB V p tol (F.getD i []) = true := by
    intro i hi
    have hm := List.mem_filter.mp hi
    exact ⟨List.mem_range.mp hm.1, hm.2⟩
  have hnd : (clippedIds V F p tol).Nodup := (List.nodup_range F.length).filter _
  have hfold := clipLoop_write V F p tol getPoly htol hVal hRows
    (clippedIds V F p tol) []
    ⟨F, [], [], [], if getPoly then prepassBd V F p tol else [], false⟩
    hnd (fun i _ hc => by simp at hc) hids rfl (fun g _ => rfl)
    (fun _ g hg => by simp at hg)
    (fun kv hkv => by simp at hkv)
    (fun q hq => by simp at hq)
  have hcc : ((clippedIds V F p tol).map (fun i => (i, F.getD i []))).foldl
      (fun s it => processClippedFace V p tol V.length getPoly s it.1 it.2)
      ⟨F, [], [], [], if getPoly then prepassBd V F p tol else [], false⟩ =
      clipCore V F p tol getPoly := by
    unfold clipCore
    rfl
  rw [hcc] at hfold
  obtain ⟨c1, c2, c3⟩ := hfold
  refine ⟨by rw [hcall]; exact c1, ?_, ?_⟩
  · intro g hg
    rw [hcall]
    exact c2 g (by simp) hg
  · intro g hg
    rw [hcall]
    exact c3 herr0 g (Or.inr hg)

/-- C10 witness: the straddling unit tetrahedron, whose four faces are
all clipped and all mutated in the caller's array. -/
theorem c10_inplace_mutation_witness :
    tetRes.callerF.length = tetF.length ∧
    (∀ g, g ∉ clippedIds tetV tetF planeOxy (1/1000) →
      tetRes.callerF.getD g [] = tetF.getD g []) ∧
    (∀ g ∈ clippedIds tetV tetF planeOxy (1/1000),
      tetRes.callerF.getD g [] ≠ tetF.getD g []) :=
  c10_inplace_mutation tetV tetF planeOxy (1/1000) true tetRes
    (by norm_num) (by decide) (by decide) (by with_unfolding_all decide)

/-! ## The pentagon split of a clipped quadrangle -/

theorem storeEdgeHalf1_F (V : List Pt3) (p : PlaneMM) (nv : ℕ) (st : ClipSt)
    (iV0 iV1 : ℕ) : (storeEdgeHalf1 V p nv st iV0 iV1).2.F = st.F := by
  unfold storeEdgeHalf1
  cases alookup st.edges iV0 with
  | none => rfl
  | some nq =>
    dsimp only
    split_ifs <;> rfl

theorem storeEdgeHalf1_newF (V : List Pt3) (p : PlaneMM) (nv : ℕ) (st : ClipSt)
    (iV0 iV1 : ℕ) : (storeEdgeHalf1 V p nv st iV0 iV1).2.newF = st.newF := by
  unfold storeEdgeHalf1
  cases alookup st.edges iV0 with
  | none => rfl
  | some nq =>
    dsimp only
    split_ifs <;> rfl

theorem storeEdgeHalf1_err (V : List Pt3) (p : PlaneMM) (nv : ℕ) (st : ClipSt)
    (iV0 iV1 : ℕ) : (storeEdgeHalf1 V p nv st iV0 iV1).2.err = st.err := by
  unfold storeEdgeHalf1
  cases alookup st.edges iV0 with
  | none => rfl
  | some nq =>
    dsimp only
    split_ifs <;> rfl

theorem storeEdgeHalf2_F (st : ClipSt) (iV0 iV1 idQ : ℕ) :
    (storeEdgeHalf2 st iV0 iV1 idQ).F = st.F := by
  unfold storeEdgeHalf2
  cases alookup st.edges iV1 with
  | none => rfl
  | some nq =>
    dsimp only
    split_ifs <;> rfl

theorem storeEdgeHalf2_newF (st : ClipSt) (iV0 iV1 idQ : ℕ) :
    (storeEdgeHalf2 st iV0 iV1 idQ).newF = st.newF := by
  unfold storeEdgeHalf2
  cases alookup st.edges iV1 with
  | none => rfl
  | some nq =>
    dsimp only
    split_ifs <;> rfl

theorem storeEdgeHalf2_err (st : ClipSt) (iV0 iV1 idQ : ℕ) :
    (storeEdgeHalf2 st iV0 iV1 idQ).err = st.err := by
  unfold storeEdgeHalf2
  cases alookup st.edges iV1 with
  | none => rfl
  | some nq =>
    dsimp only
    split_ifs <;> rfl

theorem storeEdge_F (V : List Pt3) (p : PlaneMM) (nv : ℕ) (st : ClipSt)
    (iV0 iV1 : ℕ) : (storeEdge V p nv st iV0 iV1).2.F = st.F := by
  unfold storeEdge
  dsimp only
  rw [storeEdgeHalf2_F, storeEdgeHalf1_F]

theorem storeEdge_newF (V : List Pt3) (p : PlaneMM) (nv : ℕ) (st : ClipSt)
    (iV0 iV1 : ℕ) : (storeEdge V p nv st iV0 iV1).2.newF = st.newF := by
  unfold storeEdge
  dsimp only
  rw [storeEdgeHalf2_newF, storeEdgeHalf1_newF]

theorem storeEdge_err (V : List Pt3) (p : PlaneMM) (nv : ℕ) (st : ClipSt)
    (iV0 iV1 : ℕ) : (storeEdge V p nv st iV0 iV1).2.err = st.err := by
  unfold storeEdge
  dsimp only
  rw [storeEdgeHalf2_err, storeEdgeHalf1_err]

theorem bdUpdate_F (c : Prop) [Decidable c] (A B : ClipSt) :
    (if c then A else B).F = if c then A.F else B.F := by
  split_ifs <;> rfl

theorem bdUpdate_newF (c : Prop) [Decidable c] (A B : ClipSt) :
    (if c then A else B).newF = if c then A.newF else B.newF := by
  split_ifs <;> rfl

theorem bdUpdate_err (c : Prop) [Decidable c] (A B : ClipSt) :
    (if c then A else B).err = if c then A.err else B.err := by
  split_ifs <;> rfl

theorem list_four {α : Type} : ∀ (l : List α), l.length = 4 →
    ∃ a b c d, l = [a, b, c, d] := by
  intro l h
  cases l with
  | nil => simp at h
  | cons a t =>
    cases t with
    | nil => simp at h
    | cons b t2 =>
      cases t2 with
      | nil => simp at h
      | cons c t3 =>
        cases t3 with
        | nil => simp at h
        | cons d t4 =>
          cases t4 with
          | nil => exact ⟨a, b, c, d, rfl⟩
          | cons e t5 => simp at h

/-- C3: a quadrangle row with exactly one slot discarded is cut into a
5-vertex ring; processClippedFace (lines 187-274) splits it at the fixed
patterns of lines 82-83 into exactly one quadrangle, appended to the new
face list, plus one triangle (encoded with its first id repeated in slot
4) written over the face row in place, with no shape error; and for
every assignment of plane coordinates to vertex ids the shoelace area of
the un-split pentagon ring equals the sum of the shoelace areas of the
emitted triangle and quadrangle. -/
theorem c3_pentagon_split (V : List Pt3) (p : PlaneMM) (tol : ℚ) (getPoly : Bool)
    (st : ClipSt) (fid : ℕ) (row : List ℕ)
    (hrow : row.length = 4)
    (hquad : row.getD 0 0 ≠ row.getD 3 0)
    (hclip : clippedFaceB V p tol row = true)
    (hone : nbKeptOfFace V p tol row = 3) :
    ∃ tri quad : List ℕ,
      (processClippedFace V p tol V.length getPoly st fid row).F =
        st.F.set fid (tri.map (fun x => x + 1)) ∧
      (processClippedFace V p tol V.length getPoly st fid row).newF =
        st.newF ++ [quad] ∧
      (processClippedFace V p tol V.length getPoly st fid row).err = st.err ∧
      tri.length = 4 ∧ tri.getD 0 0 = tri.getD 3 0 ∧ quad.length = 4 ∧
      (clippedRing V p tol V.length st row).length = 5 ∧
      (∀ crd : ℕ → ℚ × ℚ,
        shoelaceIdxArea crd (clippedRing V p tol V.length st row) =
          shoelaceIdxArea crd [tri.getD 0 0, tri.getD 1 0, tri.getD 2 0] +
            shoelaceIdxArea crd quad) := by
  have hnb4 : faceNb row = 4 := by
    unfold faceNb
    rw [if_neg hquad]
  have hfw4 : (faceVerts row).length = 4 := by
    rw [faceVerts_length row hrow, hnb4]
  obtain ⟨a0, a1, a2, a3, hfwEq⟩ := list_four _ hfw4
  have hplmap : (faceVerts row).map (fun i => keepB V p tol i) =
      [keepB V p tol a0, keepB V p tol a1, keepB V p tol a2, keepB V p tol a3] := by
    rw [hfwEq]
    rfl
  unfold nbKeptOfFace at hone
  rw [hfwEq] at hone
  cases hb0 : keepB V p tol a0 <;> cases hb1 : keepB V p tol a1 <;>
    cases hb2 : keepB V p tol a2 <;> cases hb3 : keepB V p tol a3 <;>
    rw [hb0, hb1, hb2, hb3] at hplmap <;>
    simp [List.countP_cons, List.countP_nil, hb0, hb1, hb2, hb3] at hone
  · -- flags [false, true, true, true]: first slot discarded
    refine ⟨[a1, a2, a3, a1],
      [(storeEdge V p V.length st a0 a1).1, a1, a3,
       (storeEdge V p V.length (storeEdge V p V.length st a0 a1).2 a3 a0).1],
      ?_, ?_, ?_, rfl, rfl, rfl, ?_, ?_⟩
    · unfold processClippedFace
      dsimp only
      rw [hnb4, hplmap, hfwEq]
      simp [ringLoop, insertAt, maskFilter, List.rotate, List.findIdx_cons,
            splitTriangle, splitQuadrangle, storeEdge_F, storeEdge_newF,
            storeEdge_err, bdUpdate_F, bdUpdate_newF, bdUpdate_err]
    · unfold processClippedFace
      dsimp only
      rw [hnb4, hplmap, hfwEq]
      simp [ringLoop, insertAt, maskFilter, List.rotate, List.findIdx_cons,
            splitTriangle, splitQuadrangle, storeEdge_F, storeEdge_newF,
            storeEdge_err, bdUpdate_F, bdUpdate_newF, bdUpdate_err]
    · unfold processClippedFace
      dsimp only
      rw [hnb4, hplmap, hfwEq]
      simp [ringLoop, insertAt, maskFilter, List.rotate, List.findIdx_cons,
            splitTriangle, splitQuadrangle, storeEdge_F, storeEdge_newF,
            storeEdge_err, bdUpdate_F, bdUpdate_newF, bdUpdate_err]
    · unfold clippedRing
      dsimp only
      rw [hnb4, hplmap, hfwEq]
      simp [ringLoop, insertAt, maskFilter]
    · intro crd
      unfold clippedRing
      dsimp only
      rw [hnb4, hplmap, hfwEq]
      simp [ringLoop, insertAt, maskFilter, shoelaceIdxArea, List.rotate]
      ring
  · -- flags [true, false, true, true]: second slot discarded
    refine ⟨[a2, a3, a0, a2],
      [(storeEdge V p V.length st a1 a2).1, a2, a0,
       (storeEdge V p V.length (storeEdge V p V.length st a1 a2).2 a0 a1).1],
      ?_, ?_, ?_, rfl, rfl, rfl, ?_, ?_⟩
    · unfold processClippedFace
      dsimp only
      rw [hnb4, hplmap, hfwEq]
      simp [ringLoop, insertAt, maskFilter, List.rotate, List.findIdx_cons,
            splitTriangle, splitQuadrangle, storeEdge_F, storeEdge_newF,
            storeEdge_err, bdUpdate_F, bdUpdate_newF, bdUpdate_err]
    · unfold processClippedFace
      dsimp only
      rw [hnb4, hplmap, hfwEq]
      simp [ringLoop, insertAt, maskFilter, List.rotate, List.findIdx_cons,
            splitTriangle, splitQuadrangle, storeEdge_F, storeEdge_newF,
            storeEdge_err, bdUpdate_F, bdUpdate_newF, bdUpdate_err]
    · unfold processClippedFace
      dsimp only
      rw [hnb4, hplmap, hfwEq]
      simp [ringLoop, insertAt, maskFilter, List.rotate, List.findIdx_cons,
            splitTriangle, splitQuadrangle, storeEdge_F, storeEdge_newF,
            storeEdge_err, bdUpdate_F, bdUpdate_newF, bdUpdate_err]
    · unfold clippedRing
      dsimp only
      rw [hnb4, hplmap, hfwEq]
      simp [ringLoop, insertAt, maskFilter]
    · intro crd
      unfold clippedRing
      dsimp only
      rw [hnb4, hplmap, hfwEq]
      simp [ringLoop, insertAt, maskFilter, shoelaceIdxArea, List.rotate]
      ring
  · -- flags [true, true, false, true]: third slot discarded
    refine ⟨[a3, a0, a1, a3],
      [(storeEdge V p V.length st a2 a3).1, a3, a1,
       (storeEdge V p V.length (storeEdge V p V.length st a2 a3).2 a1 a2).1],
      ?_, ?_, ?_, rfl, rfl, rfl, ?_, ?_⟩
    · unfold processClippedFace
      dsimp only
      rw [hnb4, hplmap, hfwEq]
      simp [ringLoop, insertAt, maskFilter, List.rotate, List.findIdx_cons,
            splitTriangle, splitQuadrangle, storeEdge_F, storeEdge_newF,
            storeEdge_err, bdUpdate_F, bdUpdate_newF, bdUpdate_err]
    · unfold processClippedFace
      dsimp only
      rw [hnb4, hplmap, hfwEq]
      simp [ringLoop, insertAt, maskFilter, List.rotate, List.findIdx_cons,
            splitTriangle, splitQuadrangle, storeEdge_F, storeEdge_newF,
            storeEdge_err, bdUpdate_F, bdUpdate_newF, bdUpdate_err]
    · unfold processClippedFace
      dsimp only
      rw [hnb4, hplmap, hfwEq]
      simp [ringLoop, insertAt, maskFilter, List.rotate, List.findIdx_cons,
            splitTriangle, splitQuadrangle, storeEdge_F, storeEdge_newF,
            storeEdge_err, bdUpdate_F, bdUpdate_newF, bdUpdate_err]
    · unfold clippedRing
      dsimp only
      rw [hnb4, hplmap, hfwEq]
      simp [ringLoop, insertAt, maskFilter]
    · intro crd
      unfold clippedRing
      dsimp only
      rw [hnb4, hplmap, hfwEq]
      simp [ringLoop, insertAt, maskFilter, shoelaceIdxArea, List.rotate]
      ring
  · -- flags [true, true, true, false]: last slot discarded
    refine ⟨[a0, a1, a2, a0],
      [(storeEdge V p V.length (storeEdge V p V.length st a2 a3).2 a3 a0).1, a0, a2,
       (storeEdge V p V.length st a2 a3).1],
      ?_, ?_, ?_, rfl, rfl, rfl, ?_, ?_⟩
    · unfold processClippedFace
      dsimp only
      rw [hnb4, hplmap, hfwEq]
      simp [ringLoop, insertAt, maskFilter, List.rotate, List.findIdx_cons,
            splitTriangle, splitQuadrangle, storeEdge_F, storeEdge_newF,
            storeEdge_err, bdUpdate_F, bdUpdate_newF, bdUpdate_err]
    · unfold processClippedFace
      dsimp only
      rw [hnb4, hplmap, hfwEq]
      simp [ringLoop, insertAt, maskFilter, List.rotate, List.findIdx_cons,
            splitTriangle, splitQuadrangle, storeEdge_F, storeEdge_newF,
            storeEdge_err, bdUpdate_F, bdUpdate_newF, bdUpdate_err]
    · unfold processClippedFace
      dsimp only
      rw [hnb4, hplmap, hfwEq]
      simp [ringLoop, insertAt, maskFilter, List.rotate, List.findIdx_cons,
            splitTriangle, splitQuadrangle, storeEdge_F, storeEdge_newF,
            storeEdge_err, bdUpdate_F, bdUpdate_newF, bdUpdate_err]
    · unfold clippedRing
      dsimp only
      rw [hnb4, hplmap, hfwEq]
      simp [ringLoop, insertAt, maskFilter]
    · intro crd
      unfold clippedRing
      dsimp only
      rw [hnb4, hplmap, hfwEq]
      simp [ringLoop, insertAt, maskFilter, shoelaceIdxArea, List.rotate]
      ring

/-- C3 witness: the single-quadrangle fixture whose second vertex sticks
out of the water. -/
theorem c3_pentagon_split_witness :
    ∃ tri quad : List ℕ,
      (processClippedFace pentV planeOxy (1/1000) pentV.length true pentSt 0
        [1, 2, 3, 4]).F = pentSt.F.set 0 (tri.map (fun x => x + 1)) ∧
      (processClippedFace pentV planeOxy (1/1000) pentV.length true pentSt 0
        [1, 2, 3, 4]).newF = pentSt.newF ++ [quad] ∧
      (processClippedFace pentV planeOxy (1/1000) pentV.length true pentSt 0
        [1, 2, 3, 4]).err = pentSt.err ∧
      tri.length = 4 ∧ tri.getD 0 0 = tri.getD 3 0 ∧ quad.length = 4 ∧
      (clippedRing pentV planeOxy (1/1000) pentV.length pentSt [1, 2, 3, 4]).length = 5 ∧
      (∀ crd : ℕ → ℚ × ℚ,
        shoelaceIdxArea crd (clippedRing pentV planeOxy (1/1000) pentV.length pentSt
            [1, 2, 3, 4]) =
          shoelaceIdxArea crd [tri.getD 0 0, tri.getD 1 0, tri.getD 2 0] +
            shoelaceIdxArea crd quad) :=
  c3_pentagon_split pentV planeOxy (1/1000) true pentSt 0 [1, 2, 3, 4]
    (by decide) (by decide) (by with_unfolding_all decide)
    (by with_unfolding_all decide)

end MM
